import Mathlib

/-!
Verification development for the PropertySyncer reactive-state
synchronization utility (`src/index.js`).

The JavaScript code is shallowly embedded: JS values are a `Val` inductive
with references into an explicit `Heap` (a list of heap objects, addresses
are list indices), so reference identity, in-place mutation and aliasing
are faithfully represented.  Recursive algorithms whose JS originals walk
the (possibly cyclic) object graph (`isDeepEqual`, `deepCopy`) are embedded
with an explicit fuel parameter; `none` means the computation did not
finish within the given fuel, and theorems quantify over fuel where
termination itself is at stake.
-/

/-- JavaScript runtime values.  Objects, arrays and dates live on the heap
and are denoted by `ref` addresses; `vNaN` is the number NaN (kept separate
from `vNum` because `NaN === NaN` is false); `vFun` is an opaque function
value identified by a tag. -/
inductive Val where
  | vUndefined : Val
  | vNull : Val
  | vBool : Bool → Val
  | vNum : Int → Val
  | vNaN : Val
  | vStr : String → Val
  | vFun : Nat → Val
  | ref : Nat → Val
deriving DecidableEq, Repr

/-- Heap objects: keyed objects with ordered own-enumerable fields,
arrays, and dates. -/
inductive HObj where
  | hobj : List (String × Val) → HObj
  | harr : List Val → HObj
  | hdate : Int → HObj
deriving DecidableEq, Repr

/-- A heap is a list of objects; the address of an object is its index. -/
abbrev Heap := List HObj

/-- Address lookup. -/
def heapGet (h : Heap) (a : Nat) : Option HObj := List.get? h a

/-- Overwrite the object stored at an address. -/
def heapSet (h : Heap) (a : Nat) (o : HObj) : Heap := List.set h a o

/-- Allocate a fresh object, returning the extended heap and its address. -/
def alloc (h : Heap) (o : HObj) : Heap × Nat := (List.append h [o], List.length h)

/-- The `typeof` operator. -/
def jsTypeof : Val → String
  | .vUndefined => "undefined"
  | .vNull => "object"
  | .vBool _ => "boolean"
  | .vNum _ => "number"
  | .vNaN => "number"
  | .vStr _ => "string"
  | .vFun _ => "function"
  | .ref _ => "object"

/-- Strict equality `===`: reference equality on objects, value equality on
primitives, `NaN === NaN` is false. -/
def jsStrictEq : Val → Val → Bool
  | .vUndefined, .vUndefined => true
  | .vNull, .vNull => true
  | .vBool a, .vBool b => a = b
  | .vNum a, .vNum b => a = b
  | .vStr a, .vStr b => a = b
  | .vFun a, .vFun b => a = b
  | .ref a, .ref b => a = b
  | _, _ => false

/-- Loose equality with null: `v == null` holds exactly for `null` and
`undefined`. -/
def looseNull : Val → Bool
  | .vNull => true
  | .vUndefined => true
  | _ => false

/-- JS truthiness. -/
def truthy : Val → Bool
  | .vUndefined => false
  | .vNull => false
  | .vBool b => b
  | .vNum n => n ≠ 0
  | .vNaN => false
  | .vStr s => s ≠ ""
  | .vFun _ => true
  | .ref _ => true

/-- Named properties of `Object.prototype`, visible through the `in`
operator and through property reads on plain objects. -/
def objProtoKeys : List String :=
  ["constructor", "hasOwnProperty", "isPrototypeOf", "propertyIsEnumerable",
   "toLocaleString", "toString", "valueOf"]

/-- Index of a key in a list of strings (used to give each inherited
prototype function a stable identity). -/
def keyIndex : List String → String → Nat
  | [], _ => 0
  | k :: ks, s => if k = s then 0 else keyIndex ks s + 1

/-- The function value found on the prototype chain for a reserved name,
or `undefined` if the name is not a prototype member. -/
def protoLookup (s : String) : Val :=
  if s ∈ objProtoKeys then .vFun (1000 + keyIndex objProtoKeys s) else .vUndefined

/-- Value of one decimal digit character. -/
def digitVal (c : Char) : Nat := c.toNat - 48

/-- Numeric value of a digit string. -/
def digitsToNat (cs : List Char) : Nat :=
  cs.foldl (fun n c => n * 10 + digitVal c) 0

/-- Parse a string as a canonical array index ("0", "17", ... but not "01",
"+1" or "1x"), the way JS array indexing treats property keys. -/
def segToIndex (s : String) : Option Nat :=
  match s.data with
  | [] => none
  | c :: cs =>
    if (c :: cs).all Char.isDigit ∧ (c = '0' → cs = []) then
      some (digitsToNat (c :: cs))
    else none

/-- Property read `v[s]` on a heap value: own entry first, else the
prototype chain; canonical indices and `length` on arrays; `undefined`
everywhere else. -/
def jsGetProp (h : Heap) (v : Val) (s : String) : Val :=
  match v with
  | .ref a =>
    match heapGet h a with
    | some (.hobj fields) =>
      match List.lookup s fields with
      | some w => w
      | none => protoLookup s
    | some (.harr elems) =>
      match segToIndex s with
      | some i => List.getD elems i .vUndefined
      | none => if s = "length" then .vNum (List.length elems) else protoLookup s
    | some (.hdate _) => protoLookup s
    | none => .vUndefined
  | _ => .vUndefined

/-- The `in` operator `s in v`: own entries or prototype-chain members. -/
def jsHasIn (h : Heap) (v : Val) (s : String) : Bool :=
  match v with
  | .ref a =>
    match heapGet h a with
    | some (.hobj fields) => (List.lookup s fields).isSome || decide (s ∈ objProtoKeys)
    | some (.harr elems) =>
      (match segToIndex s with
       | some i => decide (i < List.length elems)
       | none => false) || decide (s = "length") || decide (s ∈ objProtoKeys)
    | some (.hdate _) => decide (s ∈ objProtoKeys)
    | none => false
  | _ => false

/-- `Object.keys`: own enumerable keys in insertion order; index strings
for arrays; empty for dates. -/
def objKeys (h : Heap) (a : Nat) : List String :=
  match heapGet h a with
  | some (.hobj fields) => fields.map (fun p => p.1)
  | some (.harr elems) => (List.range (List.length elems)).map Nat.repr
  | some (.hdate _) => []
  | none => []

/-- `Array.isArray` on an address. -/
def isArrayA (h : Heap) (a : Nat) : Bool :=
  match heapGet h a with
  | some (.harr _) => true
  | _ => false

/-- `Array.isArray` on a value. -/
def isArrayV (h : Heap) (v : Val) : Bool :=
  match v with
  | .ref a => isArrayA h a
  | _ => false

/-- The elements of the array stored at an address (empty if the address
does not hold an array). -/
def arrElems (h : Heap) (a : Nat) : List Val :=
  match heapGet h a with
  | some (.harr elems) => elems
  | _ => []

/-- `value !== null && typeof value === 'object'`: the guard the engine
uses before deep-copying. -/
def isObjVal (v : Val) : Bool :=
  match v with
  | .ref _ => true
  | _ => false

/-- Address of a reference value (callers guard on `isObjVal`/`isArrayV`). -/
def addrOf : Val → Nat
  | .ref a => a
  | _ => 0

/-!  Path resolution (`compilePath`, `getByPath`, `checkPathExists`).

The JS code first rewrites `[<digits>]` to `.<digits>` (the regex
`/\[(\d+)\]/g`), then splits on `.` and drops empty segments.  The regex
rewrite is embedded as a left-to-right scan with a pending-bracket state:
`none` outside a bracket candidate, `some ds` after `[` with digits `ds`
(reversed) read so far.  -/

/-- One pass of the global regex replace `\[(\d+)\]` → `.<digits>`. -/
def replBr : List Char → Option (List Char) → List Char
  | [], none => []
  | [], some ds => '[' :: ds.reverse
  | c :: rest, none =>
    if c = '[' then replBr rest (some []) else c :: replBr rest none
  | c :: rest, some ds =>
    if c.isDigit then replBr rest (some (c :: ds))
    else if c = ']' ∧ ds ≠ [] then '.' :: ds.reverse ++ replBr rest none
    else '[' :: ds.reverse ++ (if c = '[' then replBr rest (some []) else c :: replBr rest none)

/-- Split a character list on `'.'`. -/
def splitDots : List Char → List Char → List String
  | [], acc => [String.mk acc.reverse]
  | c :: rest, acc =>
    if c = '.' then String.mk acc.reverse :: splitDots rest []
    else splitDots rest (c :: acc)

/-- `compilePath`'s segment list: bracket rewrite, split on dots, drop
empty segments (`.filter(Boolean)`). -/
def compilePath (path : String) : List String :=
  (splitDots (replBr path.data none) []).filter (fun s => s ≠ "")

/-- The compiled accessor's walk: at each segment, if the current value is
`null`/`undefined` or not of object type, resolution stops with
`undefined`; otherwise it reads the property and continues. -/
def pathWalk (h : Heap) : Val → List String → Val
  | cur, [] => cur
  | cur, s :: rest =>
    if looseNull cur ∨ jsTypeof cur ≠ "object" then .vUndefined
    else pathWalk h (jsGetProp h cur s) rest

/-- `getByPath(obj, path)`: `undefined` for a falsy root or empty path,
otherwise run the compiled accessor. -/
def getByPath (h : Heap) (obj : Val) (path : String) : Val :=
  if ¬ truthy obj ∨ path = "" then .vUndefined
  else pathWalk h obj (compilePath path)

/-- The walk of `checkPathExists`: each segment must satisfy the `in`
operator on the current container before stepping into it. -/
def existsWalk (h : Heap) : Val → List String → Bool
  | _, [] => true
  | cur, s :: rest =>
    if looseNull cur ∨ jsTypeof cur ≠ "object" then false
    else if ¬ jsHasIn h cur s then false
    else existsWalk h (jsGetProp h cur s) rest

/-- `checkPathExists(obj, path)`. -/
def checkPathExists (h : Heap) (obj : Val) (path : String) : Bool :=
  if ¬ truthy obj ∨ path = "" then false
  else existsWalk h obj (compilePath path)

example : compilePath "a.b[0].c" = ["a", "b", "0", "c"] := rfl
example : compilePath "" = [] := rfl
example : compilePath "." = [] := rfl
example : compilePath "[12" = ["[12"] := rfl
example : compilePath "a[[3]]" = ["a[", "3]"] := rfl
example :
    getByPath [.hobj [("a", .ref 1)], .harr [.vNum 7]] (.ref 0) "a[0]" = .vNum 7 := rfl
example :
    getByPath [.hobj [("a", .ref 1)], .harr [.vNum 7]] (.ref 0) "a[1]" = .vUndefined := rfl
example : checkPathExists [.hobj []] (.ref 0) "toString" = true := rfl
example : checkPathExists [.hobj []] (.ref 0) "missing" = false := rfl

/-!  Deep equality (`isDeepEqual`).

The JS function memoizes results in a `WeakMap` keyed by the pair of
object references; crucially it only stores a result *after* the recursive
comparison has returned, so the cache is embedded as a list of
`(addrA, addrB, result)` triples threaded through the call.  The recursion
is fueled: `none` means the computation did not complete within `fuel`
levels of nesting. -/

/-- The memoization cache of one `isDeepEqual` invocation. -/
abbrev DCache := List (Nat × Nat × Bool)

/-- Cache lookup for a pair of addresses. -/
def dcacheGet (c : DCache) (ra rb : Nat) : Option Bool :=
  match c with
  | [] => none
  | (a, b, r) :: rest => if a = ra ∧ b = rb then some r else dcacheGet rest ra rb

/-- Record the comparison result for a pair of addresses. -/
def dcacheIns (c : DCache) (ra rb : Nat) (r : Bool) : DCache := (ra, rb, r) :: c

/-- Index-wise comparison of two element lists, short-circuiting on the
first mismatch, threading the cache. -/
def deqList (cmp : Val → Val → DCache → Option (Bool × DCache)) :
    List Val → List Val → DCache → Option (Bool × DCache)
  | [], _, c => some (true, c)
  | _ :: _, [], c => some (true, c)
  | a :: as, b :: bs, c =>
    match cmp a b c with
    | none => none
    | some (false, c') => some (false, c')
    | some (true, c') => deqList cmp as bs c'

/-- Key-wise comparison: for each key of `a`, first `key in b` (prototype
chain included), then recursive comparison of the two property values. -/
def deqKeys (cmp : Val → Val → DCache → Option (Bool × DCache))
    (h : Heap) (a b : Val) : List String → DCache → Option (Bool × DCache)
  | [], c => some (true, c)
  | k :: ks, c =>
    if ¬ jsHasIn h b k then some (false, c)
    else
      match cmp (jsGetProp h a k) (jsGetProp h b k) c with
      | none => none
      | some (false, c') => some (false, c')
      | some (true, c') => deqKeys cmp h a b ks c'

/-- `isDeepEqual(a, b, cache)` with explicit fuel.  Mirrors the JS control
flow: strict-equality fast path, `typeof` discrimination, null handling,
primitive fallback, cache lookup, array branch (length then index-wise),
object branch (key-set cardinality then key-wise), and finally the cache
store — which happens only after the recursive comparison has finished. -/
def isDeepEqualF (h : Heap) : Nat → Val → Val → DCache → Option (Bool × DCache)
  | 0 => fun _ _ _ => none
  | fuel + 1 => fun a b cache =>
    if jsStrictEq a b then some (true, cache)
    else if jsTypeof a ≠ jsTypeof b then some (false, cache)
    else if looseNull a ∨ looseNull b then some (jsStrictEq a b, cache)
    else if jsTypeof a ≠ "object" then some (jsStrictEq a b, cache)
    else
      match a, b with
      | .ref ra, .ref rb =>
        match dcacheGet cache ra rb with
        | some r => some (r, cache)
        | none =>
          let comp :=
            if isArrayA h ra then
              if ¬ isArrayA h rb ∨ List.length (arrElems h ra) ≠ List.length (arrElems h rb) then
                some (false, cache)
              else
                deqList (fun x y c => isDeepEqualF h fuel x y c)
                  (arrElems h ra) (arrElems h rb) cache
            else
              if List.length (objKeys h ra) ≠ List.length (objKeys h rb) then
                some (false, cache)
              else
                deqKeys (fun x y c => isDeepEqualF h fuel x y c) h (.ref ra) (.ref rb)
                  (objKeys h ra) cache
          match comp with
          | none => none
          | some (r, c') => some (r, dcacheIns c' ra rb r)
      | _, _ => some (jsStrictEq a b, cache)

example : isDeepEqualF [] 3 (.vNum 2) (.vNum 2) [] = some (true, []) := rfl
example : isDeepEqualF [] 3 .vNaN .vNaN [] = some (false, []) := rfl
example : isDeepEqualF [] 3 (.vNum 2) (.vStr "2") [] = some (false, []) := rfl
example :
    isDeepEqualF [.hobj [("x", .vNum 1)], .hobj [("x", .vNum 1)]] 3
      (.ref 0) (.ref 1) [] = some (true, [(0, 1, true)]) := rfl
example :
    isDeepEqualF [.hobj [("x", .vNum 1)], .hobj [("x", .vNum 2)]] 3
      (.ref 0) (.ref 1) [] = some (false, [(0, 1, false)]) := rfl
example :
    isDeepEqualF [.harr [.vNum 1], .harr [.vNum 1, .vNum 2]] 3
      (.ref 0) (.ref 1) [] = some (false, [(0, 1, false)]) := rfl
example :
    isDeepEqualF [.hobj [("self", .ref 0)], .hobj [("self", .ref 1)]] 8
      (.ref 0) (.ref 1) [] = none := by decide

/-!  Deep copy (`deepCopy`).

Unlike `isDeepEqual`, `deepCopy` records `seen.set(value, copy)` *before*
recursing into children, so it is cycle-safe.  The embedding threads the
heap (copies are fresh allocations) and the `seen` map (original address →
copy address).  Fuel is an embedding artifact only; the theorems that use
`deepCopy` take its successful result as a hypothesis. -/

/-- Copy a list of child values left to right. -/
def copyListF (cp : Heap → Val → List (Nat × Nat) → Option (Heap × Val × List (Nat × Nat))) :
    Heap → List Val → List (Nat × Nat) → Option (Heap × List Val × List (Nat × Nat))
  | h, [], seen => some (h, [], seen)
  | h, v :: vs, seen =>
    match cp h v seen with
    | none => none
    | some (h', v', seen') =>
      match copyListF cp h' vs seen' with
      | none => none
      | some (h'', vs', seen'') => some (h'', v' :: vs', seen'')

/-- Copy an object's own fields left to right. -/
def copyFieldsF (cp : Heap → Val → List (Nat × Nat) → Option (Heap × Val × List (Nat × Nat))) :
    Heap → List (String × Val) → List (Nat × Nat) →
    Option (Heap × List (String × Val) × List (Nat × Nat))
  | h, [], seen => some (h, [], seen)
  | h, (k, v) :: fs, seen =>
    match cp h v seen with
    | none => none
    | some (h', v', seen') =>
      match copyFieldsF cp h' fs seen' with
      | none => none
      | some (h'', fs', seen'') => some (h'', (k, v') :: fs', seen'')

/-- `deepCopy(value, seen)`: primitives (and functions) are returned as
is; a reference already in `seen` maps to its existing copy; dates are
duplicated; arrays and plain objects allocate a placeholder first (so that
cycles resolve through `seen`), copy children, then fill the placeholder. -/
def deepCopyF : Nat → Heap → Val → List (Nat × Nat) → Option (Heap × Val × List (Nat × Nat))
  | 0 => fun _ _ _ => none
  | fuel + 1 => fun h v seen =>
    match v with
    | .ref a =>
      match List.lookup a seen with
      | some n => some (h, .ref n, seen)
      | none =>
        match heapGet h a with
        | some (.hdate t) =>
          let p := alloc h (.hdate t)
          some (p.1, .ref p.2, (a, p.2) :: seen)
        | some (.harr elems) =>
          let p := alloc h (.harr [])
          match copyListF (fun h' v' s' => deepCopyF fuel h' v' s') p.1 elems ((a, p.2) :: seen) with
          | none => none
          | some (h', elems', seen') => some (heapSet h' p.2 (.harr elems'), .ref p.2, seen')
        | some (.hobj fields) =>
          let p := alloc h (.hobj [])
          match copyFieldsF (fun h' v' s' => deepCopyF fuel h' v' s') p.1 fields ((a, p.2) :: seen) with
          | none => none
          | some (h', fields', seen') => some (heapSet h' p.2 (.hobj fields'), .ref p.2, seen')
        | none =>
          let p := alloc h (.hobj [])
          some (p.1, .ref p.2, (a, p.2) :: seen)
    | _ => some (h, v, seen)

example : deepCopyF 3 [] (.vNum 5) [] = some ([], .vNum 5, []) := rfl
example :
    deepCopyF 3 [.hobj [("x", .vNum 1)]] (.ref 0) [] =
      some ([.hobj [("x", .vNum 1)], .hobj [("x", .vNum 1)]], .ref 1, [(0, 1)]) := rfl
example :
    deepCopyF 3 [.hobj [("self", .ref 0)]] (.ref 0) [] =
      some ([.hobj [("self", .ref 0)], .hobj [("self", .ref 1)]], .ref 1, [(0, 1)]) := rfl

/-!  Array reconciliation (`updateArray`, the engine's variant).

`updateArray(targetArray, newArray)` walks the overlapping indices: a new
element that is `null`, a primitive, or an *array* is assigned wholesale
(reference assignment) when it differs; a plain-object new element merges
into a plain-object live slot in place (copy every own key of the new
element, then delete live keys that are not `in` the new element), and
replaces the slot with a shallow clone otherwise.  Then the live array
grows by appending (plain objects shallow-cloned, anything else as-is) or
shrinks by `splice`. -/

/-- Read `arr[i]` for the array at an address. -/
def arrGet (h : Heap) (a : Nat) (i : Nat) : Val := List.getD (arrElems h a) i .vUndefined

/-- Write `arr[i]` in place (no-op beyond the current length, which the
call sites never do). -/
def arrSet (h : Heap) (a : Nat) (i : Nat) (v : Val) : Heap :=
  match heapGet h a with
  | some (.harr elems) => heapSet h a (.harr (List.set elems i v))
  | _ => h

/-- `arr.push(v)`. -/
def arrPush (h : Heap) (a : Nat) (v : Val) : Heap :=
  match heapGet h a with
  | some (.harr elems) => heapSet h a (.harr (List.append elems [v]))
  | _ => h

/-- `arr.splice(n)`: truncate to length `n`. -/
def arrTrunc (h : Heap) (a : Nat) (n : Nat) : Heap :=
  match heapGet h a with
  | some (.harr elems) => heapSet h a (.harr (List.take n elems))
  | _ => h

/-- Own enumerable fields of an object as key/value pairs (`for ... in`
with `hasOwnProperty`): fields for plain objects, indexed entries for
arrays, nothing for dates. -/
def ownFields (h : Heap) (a : Nat) : List (String × Val) :=
  match heapGet h a with
  | some (.hobj fields) => fields
  | some (.harr elems) => (List.zip (List.range (List.length elems)) elems).map
      (fun p => (Nat.repr p.1, p.2))
  | _ => []

/-- `obj[k] = v` on a field list: update in place, or append a new key. -/
def setField : List (String × Val) → String → Val → List (String × Val)
  | [], k, v => [(k, v)]
  | (k', v') :: rest, k, v =>
    if k' = k then (k, v) :: rest else (k', v') :: setField rest k v

/-- The object-into-object merge of `updateArray`: copy every own field of
the source object into the target object, then delete target fields whose
key is not `in` the source (prototype chain included, as the JS `in`
operator does). -/
def mergeInto (h : Heap) (t s : Nat) : Heap :=
  match heapGet h t with
  | some (.hobj ft) =>
    let merged := (ownFields h s).foldl (fun acc kv => setField acc kv.1 kv.2) ft
    heapSet h t (.hobj (merged.filter (fun kv => jsHasIn h (.ref s) kv.1)))
  | _ => h

/-- `{ ...item }`: a fresh shallow clone of a plain object (dates spread
to an empty plain object; used only on non-array object values). -/
def shallowClone (h : Heap) (v : Val) : Heap × Val :=
  match v with
  | .ref a =>
    match heapGet h a with
    | some (.hobj fields) =>
      let p := alloc h (.hobj fields)
      (p.1, .ref p.2)
    | some (.harr _) => (h, v)
    | _ =>
      let p := alloc h (.hobj [])
      (p.1, .ref p.2)
  | _ => (h, v)

/-- One overlap-index step of `updateArray`. -/
def updStep (ta na : Nat) (h : Heap) (i : Nat) : Heap :=
  let newItem := arrGet h na i
  let targetItem := arrGet h ta i
  if newItem = .vNull ∨ jsTypeof newItem ≠ "object" ∨ isArrayV h newItem then
    if ¬ jsStrictEq targetItem newItem then arrSet h ta i newItem else h
  else
    if truthy targetItem ∧ jsTypeof targetItem = "object" ∧ ¬ isArrayV h targetItem then
      mergeInto h (addrOf targetItem) (addrOf newItem)
    else
      let p := shallowClone h newItem
      arrSet p.1 ta i p.2

/-- One append step for the grow phase: push the new element, shallow
cloning it when it is a truthy non-array object. -/
def appendStep (ta na : Nat) (h : Heap) (i : Nat) : Heap :=
  let item := arrGet h na i
  if truthy item ∧ jsTypeof item = "object" ∧ ¬ isArrayV h item then
    let p := shallowClone h item
    arrPush p.1 ta p.2
  else arrPush h ta item

/-- `updateArray(targetArray, newArray)` as a heap transformer. -/
def updateArray (h : Heap) (tv nv : Val) : Heap :=
  if ¬ (isArrayV h nv ∧ isArrayV h tv) then h
  else
    let ta := addrOf tv
    let na := addrOf nv
    let oldL := List.length (arrElems h ta)
    let newL := List.length (arrElems h na)
    let h1 := (List.range (min oldL newL)).foldl (updStep ta na) h
    if oldL < newL then (List.range' oldL (newL - oldL)).foldl (appendStep ta na) h1
    else if newL < oldL then arrTrunc h1 ta newL
    else h1

example :
    updateArray [.harr [.vNum 1, .vNum 2, .vNum 3], .harr [.vNum 9]] (.ref 0) (.ref 1) =
      [.harr [.vNum 9], .harr [.vNum 9]] := rfl
example :
    updateArray [.harr [], .harr [.vNum 4, .vNum 5]] (.ref 0) (.ref 1) =
      [.harr [.vNum 4, .vNum 5], .harr [.vNum 4, .vNum 5]] := rfl
example :
    updateArray
      [.harr [.ref 1], .hobj [("v", .vNum 1)], .harr [.ref 3], .hobj [("v", .vNum 2)]]
      (.ref 0) (.ref 2) =
      [.harr [.ref 1], .hobj [("v", .vNum 2)], .harr [.ref 3], .hobj [("v", .vNum 2)]] := rfl
example :
    updateArray [.harr [], .harr [.ref 2], .hobj [("v", .vNum 1)]] (.ref 0) (.ref 1) =
      [.harr [.ref 3], .harr [.ref 2], .hobj [("v", .vNum 1)], .hobj [("v", .vNum 1)]] := rfl

/-!  Mapping validation and registration (`validateMapping`,
`PropertySyncer`).

A mapping descriptor is a heap value.  `validateMapping` rejects
non-objects, missing/non-string `path`, and a `target` that is not an
object exposing a `value` slot; on success it returns the normalized
record (identity transform / absent comparator are represented by flags,
since the user callbacks themselves enter the pipeline model as semantic
functions).  `PropertySyncer` wraps each descriptor's validation and
subscription in its own try/catch, so one failure skips only that
descriptor: registration is a `filterMap`. -/

/-- The normalized result of `validateMapping`. -/
structure VMeta where
  path : String
  target : Val
  hasTransform : Bool
  hasComparator : Bool
  deepOpt : Option Bool
  copyData : Bool
deriving DecidableEq, Repr

/-- `validateMapping(item, index)`; `Except.error` models the thrown
configuration error. -/
def validateMapping (h : Heap) (item : Val) : Except Unit VMeta :=
  if ¬ truthy item ∨ jsTypeof item ≠ "object" then .error ()
  else
    let p := jsGetProp h item "path"
    if ¬ truthy p ∨ jsTypeof p ≠ "string" then .error ()
    else
      let t := jsGetProp h item "target"
      if ¬ truthy t ∨ jsTypeof t ≠ "object" ∨ ¬ jsHasIn h t "value" then .error ()
      else
        let dp := jsGetProp h item "deep"
        let cd := jsGetProp h item "copyData"
        .ok
          { path := match p with | .vStr s => s | _ => ""
            target := t
            hasTransform := jsTypeof (jsGetProp h item "transform") = "function"
            hasComparator := jsTypeof (jsGetProp h item "comparator") = "function"
            deepOpt := if dp ≠ .vUndefined then some (truthy dp) else none
            copyData := if cd ≠ .vUndefined then truthy cd else true }

/-- The per-batch registration loop of `PropertySyncer`: each descriptor
is validated inside its own try/catch, a failing one is skipped and the
rest still register. -/
def syncRegister (h : Heap) (batch : List Val) : List VMeta :=
  batch.filterMap (fun item =>
    match validateMapping h item with
    | .ok m => some m
    | .error _ => none)

example :
    validateMapping [.hobj [("value", .vNum 0)], .hobj [("path", .vStr "a.b"), ("target", .ref 0)]]
      (.ref 1) =
      .ok { path := "a.b", target := .ref 0, hasTransform := false, hasComparator := false,
            deepOpt := none, copyData := true } := rfl
example :
    validateMapping [.hobj [("value", .vNum 0)]] .vNull = .error () := rfl

/-!  The notification pipeline (`createWatcherHandler`).

The handler closes over the validated mapping.  Its stages mirror the
source: (1) change detection via deep or shallow equality, (2) the
optional user comparator — its arguments are deep copies when `copyData`
is set, only a literal boolean `false` return suppresses, a throw is
swallowed —, (3) the user transform — input copied under `copyData`, an
`undefined` return falls back to the (copied) input, a returned object is
re-copied, a throw degrades to the raw untransformed source value —, and
(4) the write — skipped when the final value already equals the target,
array-into-array delegated to `updateArray`, otherwise a wholesale
assignment to `target.value`.

User callbacks are semantic functions `Val → Except Unit Val`
(`Except.error` models a throw).  The heap is threaded because copies
allocate.  Every stage returns `none` only on fuel exhaustion of the
fueled equality/copy embeddings (a real stack overflow inside step 1
would escape the handler; inside steps 2–4 it would be caught — no claim
depends on that path, so the model keeps `none` uninterpreted and the
theorems hypothesize completed stages). -/

/-- A validated mapping as the handler sees it. -/
structure WCfg where
  copyData : Bool
  itemDeep : Option Bool
  comparator : Option (Val → Val → Except Unit Val)
  transform : Val → Except Unit Val

/-- Per-mapping deep flag, defaulted from the engine-wide option. -/
def useDeepOf (cfg : WCfg) (globalDeep : Bool) : Bool := cfg.itemDeep.getD globalDeep

/-- Step 1: did the source value change?  Deep mode runs `isDeepEqual`
with a fresh cache; shallow mode is `!==`. -/
def changeDetect (useDeep : Bool) (fuel : Nat) (h : Heap) (nv ov : Val) : Option Bool :=
  if useDeep then
    match isDeepEqualF h fuel nv ov [] with
    | none => none
    | some (eq, _) => some (!eq)
  else some (!jsStrictEq nv ov)

/-- Copy-on-demand for a callback argument: a deep copy when `copyData`
is set and the value is a non-null object, the value itself otherwise. -/
def prepArg (copyData : Bool) (fuel : Nat) (h : Heap) (v : Val) : Option (Heap × Val) :=
  if copyData ∧ isObjVal v then
    match deepCopyF fuel h v [] with
    | none => none
    | some (h', v', _) => some (h', v')
  else some (h, v)

/-- Step 2: the comparator gate.  Returns (suppress?, heap after the
argument copies).  A non-function comparator slot is absent; a thrown
comparator is swallowed and does not suppress; only a literal boolean
`false` suppresses. -/
def comparatorStage (cfg : WCfg) (fuel : Nat) (h : Heap) (nv ov : Val) :
    Option (Bool × Heap) :=
  match cfg.comparator with
  | none => some (false, h)
  | some c =>
    match prepArg cfg.copyData fuel h nv with
    | none => none
    | some (h1, cn) =>
      match prepArg cfg.copyData fuel h1 ov with
      | none => none
      | some (h2, co) =>
        match c cn co with
        | .error _ => some (false, h2)
        | .ok r => some (r = .vBool false, h2)

/-- Step 3: the transform.  Returns the heap and the final value. -/
def transformStage (cfg : WCfg) (fuel : Nat) (h : Heap) (sv : Val) : Option (Heap × Val) :=
  match prepArg cfg.copyData fuel h sv with
  | none => none
  | some (h1, tin) =>
    match cfg.transform tin with
    | .error _ => some (h1, sv)
    | .ok tv =>
      if tv = .vUndefined then some (h1, tin)
      else if cfg.copyData ∧ isObjVal tv then
        match deepCopyF fuel h1 tv [] with
        | none => none
        | some (h2, fv, _) => some (h2, fv)
      else some (h1, tv)

/-- What the handler did. -/
inductive Outcome where
  | unchanged : Outcome
  | suppressed : Heap → Outcome
  | noWrite : Heap → Val → Outcome
  | wroteArray : Heap → Outcome
  | wroteValue : Heap → Val → Outcome

/-- Step 4: compare the final value with the target's current value; skip
the write when unchanged, reconcile array-into-array in place, otherwise
assign `target.value` wholesale. -/
def writeStage (useDeep : Bool) (fuel : Nat) (h : Heap) (tv fv : Val) : Option Outcome :=
  match changeDetect useDeep fuel h tv fv with
  | none => none
  | some false => some (.noWrite h fv)
  | some true =>
    if isArrayV h fv ∧ isArrayV h tv then some (.wroteArray (updateArray h tv fv))
    else some (.wroteValue h fv)

/-- Steps 3–4 (everything after the comparator gate). -/
def afterComparator (cfg : WCfg) (globalDeep : Bool) (fuel : Nat) (h : Heap) (sv tv : Val) :
    Option Outcome :=
  match transformStage cfg fuel h sv with
  | none => none
  | some (h3, fv) => writeStage (useDeepOf cfg globalDeep) fuel h3 tv fv

/-- The watcher handler built by `createWatcherHandler`, as a function of
the observed (new, old) source values and the target's current value. -/
def createWatcherHandler (cfg : WCfg) (globalDeep : Bool) (fuel : Nat) (h : Heap)
    (nv ov tv : Val) : Option Outcome :=
  match changeDetect (useDeepOf cfg globalDeep) fuel h nv ov with
  | none => none
  | some false => some .unchanged
  | some true =>
    match comparatorStage cfg fuel h nv ov with
    | none => none
    | some (true, h2) => some (.suppressed h2)
    | some (false, h2) => afterComparator cfg globalDeep fuel h2 nv tv

example : jsTypeof .vNull = "object" := rfl
example : jsStrictEq .vNaN .vNaN = false := rfl
example : jsGetProp [.hobj []] (.ref 0) "toString" = .vFun 1005 := rfl
example : jsHasIn [.hobj []] (.ref 0) "toString" = true := rfl
example : segToIndex "01" = none := rfl
example : segToIndex "12" = some 12 := rfl

/-!  ## Helper lemmas -/

/-- Strict equality is reflexive except at NaN. -/
theorem jsStrictEq_self (a : Val) (hna : a ≠ .vNaN) : jsStrictEq a a = true := by
  cases a <;> simp [jsStrictEq] at hna ⊢

/-- Strictly equal values have the same `typeof`. -/
theorem jsStrictEq_typeof {a b : Val} (hab : jsStrictEq a b = true) :
    jsTypeof a = jsTypeof b := by
  cases a <;> cases b <;> simp [jsStrictEq] at hab <;> rfl

/-- The walk of a compiled accessor maps `undefined` to `undefined`. -/
theorem pathWalk_undefined (h : Heap) (rest : List String) :
    pathWalk h .vUndefined rest = .vUndefined := by
  cases rest <;> simp [pathWalk, looseNull]

/-- A fold preserves any invariant preserved by its step function. -/
theorem foldl_preserve {α σ : Type} (P : σ → Prop) (f : σ → α → σ) :
    ∀ (l : List α) (s : σ), P s → (∀ t a, a ∈ l → P t → P (f t a)) → P (l.foldl f s) := by
  intro l
  induction l with
  | nil => intro s hs _; exact hs
  | cons x xs ih =>
    intro s hs hstep
    exact ih (f s x) (hstep s x (List.mem_cons_self x xs) hs)
      (fun t a ha ht => hstep t a (List.mem_cons_of_mem x ha) ht)

/-- Steps 3–4 of the pipeline never yield a comparator suppression. -/
theorem afterComparator_ne_suppressed (cfg : WCfg) (gd : Bool) (fuel : Nat) (h : Heap)
    (sv tvv : Val) (h' : Heap) :
    afterComparator cfg gd fuel h sv tvv ≠ some (.suppressed h') := by
  unfold afterComparator
  cases htr : transformStage cfg fuel h sv with
  | none => simp
  | some p =>
    simp only []
    unfold writeStage
    cases hcd : changeDetect (useDeepOf cfg gd) fuel p.1 tvv p.2 with
    | none => simp
    | some b =>
      cases b with
      | false => simp
      | true =>
        by_cases harr : isArrayV p.1 p.2 ∧ isArrayV p.1 tvv <;> simp [harr]

/-!  ## C2 — deep equality: reflexivity and type discrimination -/

/-- C2 (counterexample): the claim "for every value `a`, `deep(a, a)`
returns true" fails at `a = NaN`: the strict-equality fast path does not
fire (`NaN === NaN` is false) and the primitive fallback returns
`a === b`, i.e. false. -/
theorem c2_deep_equal_nan_cex :
    isDeepEqualF [] 5 .vNaN .vNaN [] = some (false, []) := rfl

/-- C2 (amended): `isDeepEqual` is reflexive for every value other than
the primitive `NaN` (identical references and equal primitives hit the
strict-equality fast path), and returns false whenever the two top-level
`typeof`s differ. -/
theorem c2_deep_equal_refl_types (fuel : Nat) (h : Heap) (a b : Val) (cache : DCache) :
    (a ≠ .vNaN → isDeepEqualF h (fuel + 1) a a cache = some (true, cache)) ∧
    (jsTypeof a ≠ jsTypeof b → isDeepEqualF h (fuel + 1) a b cache = some (false, cache)) := by
  constructor
  · intro hna
    simp [isDeepEqualF, jsStrictEq_self a hna]
  · intro hty
    have hse : jsStrictEq a b = false := by
      cases hq : jsStrictEq a b
      · rfl
      · exact absurd (jsStrictEq_typeof hq) hty
    simp [isDeepEqualF, hse, hty]

/-- C2 witness. -/
theorem c2_deep_equal_refl_types_inst :
    isDeepEqualF [] 4 (.vNum 3) (.vNum 3) [] = some (true, []) ∧
    isDeepEqualF [] 4 (.vNum 3) (.vStr "3") [] = some (false, []) :=
  ⟨(c2_deep_equal_refl_types 3 [] (.vNum 3) (.vStr "3") []).1 (by decide),
   (c2_deep_equal_refl_types 3 [] (.vNum 3) (.vStr "3") []).2 (by decide)⟩

/-!  ## C3 — deep equality on cyclic structures -/

/-- C3 (code bug): self-comparison of any reference terminates at once
with `true` (strict-equality fast path) — but on the two *distinct*
self-referential objects `a = {self: a}` (address 0) and `b = {self: b}`
(address 1) `isDeepEqual(a, b)` never terminates, whatever the fuel: the
memo cache is written only *after* the recursive comparison returns, so
every level of the recursion runs with the same empty cache and the
visited-reference guard the claim describes never fires. -/
theorem c3_deep_equal_cycle :
    (∀ (h : Heap) (fuel : Nat) (a : Nat) (cache : DCache),
        isDeepEqualF h (fuel + 1) (.ref a) (.ref a) cache = some (true, cache)) ∧
    (∀ fuel : Nat,
        isDeepEqualF [.hobj [("self", .ref 0)], .hobj [("self", .ref 1)]] fuel
          (.ref 0) (.ref 1) [] = none) := by
  constructor
  · intro h fuel a cache
    simp [isDeepEqualF, jsStrictEq]
  · intro fuel
    induction fuel with
    | zero => rfl
    | succ n ih =>
      simp only [isDeepEqualF]
      simp [deqKeys, jsHasIn, jsGetProp, heapGet, protoLookup, dcacheGet, isArrayA,
            arrElems, objKeys, jsStrictEq, jsTypeof, looseNull, segToIndex, List.lookup, ih]

/-!  ## C6 — path resolution is total and absent-on-failure -/

/-- C6: the compiled accessor is a total function (the embedding is a
plain recursive walk — nothing throws); an empty path and a falsy root
resolve to `undefined`; a walk step whose current value is
null/undefined or not of object type yields `undefined`; and an index at
or beyond an array's bounds reads `undefined`, after which the remaining
walk stays `undefined`. -/
theorem c6_path_resolution_absent :
    (∀ (h : Heap) (obj : Val), getByPath h obj "" = .vUndefined) ∧
    (∀ (h : Heap) (obj : Val) (path : String), ¬ truthy obj → getByPath h obj path = .vUndefined) ∧
    (∀ (h : Heap) (cur : Val) (s : String) (rest : List String),
        looseNull cur = true ∨ jsTypeof cur ≠ "object" →
        pathWalk h cur (s :: rest) = .vUndefined) ∧
    (∀ (h : Heap) (a : Nat) (elems : List Val) (s : String) (i : Nat) (rest : List String),
        heapGet h a = some (.harr elems) → segToIndex s = some i → List.length elems ≤ i →
        pathWalk h (.ref a) (s :: rest) = .vUndefined) := by
  refine ⟨?_, ?_, ?_, ?_⟩
  · intro h obj
    simp [getByPath]
  · intro h obj path hobj
    simp [getByPath, hobj]
  · intro h cur s rest hcur
    simp [pathWalk, hcur]
  · intro h a elems s i rest hheap hseg hlen
    have hget : jsGetProp h (.ref a) s = .vUndefined := by
      simp [jsGetProp, hheap, hseg, List.getD, List.getElem?_eq_none hlen]
    simp [pathWalk, looseNull, jsTypeof, hget, pathWalk_undefined]

/-- C6 witness. -/
theorem c6_path_resolution_absent_inst :
    getByPath [.harr [.vNum 7]] (.ref 0) "" = .vUndefined ∧
    getByPath [.harr [.vNum 7]] .vNull "x" = .vUndefined ∧
    pathWalk [.harr [.vNum 7]] (.vNum 3) ["x"] = .vUndefined ∧
    pathWalk [.harr [.vNum 7]] (.ref 0) ["1"] = .vUndefined :=
  ⟨c6_path_resolution_absent.1 [.harr [.vNum 7]] (.ref 0),
   c6_path_resolution_absent.2.1 [.harr [.vNum 7]] .vNull "x" (by decide),
   c6_path_resolution_absent.2.2.1 [.harr [.vNum 7]] (.vNum 3) "x" [] (by decide),
   c6_path_resolution_absent.2.2.2 [.harr [.vNum 7]] 0 [.vNum 7] "1" 1 [] rfl (by decide)
     (by decide)⟩

/-!  ## C7 — existence check and inherited property names -/

/-- C7 (counterexample): on the empty plain object `{}` (address 0, no
own entries) the path `"toString"` is reported as *present* —
`checkPathExists` tests segments with the JS `in` operator, which
consults the prototype chain, so the inherited `Object.prototype.toString`
counts.  The claim requires `false` here. -/
theorem c7_exists_inherited_cex :
    checkPathExists [.hobj []] (.ref 0) "toString" = true := rfl

/-- C7 (amended): `checkPathExists` reports a final segment as present iff
the `in` operator does — own entries *or* prototype-chain members.  A
segment that is neither an own entry nor an `Object.prototype` name is
reported absent; inherited names such as `toString`/`constructor` are
reported present (the code uses `in`, not an own-property check). -/
theorem c7_exists_in_semantics :
    (∀ (h : Heap) (obj : Val) (path : String), truthy obj → path ≠ "" →
        checkPathExists h obj path = existsWalk h obj (compilePath path)) ∧
    (∀ (h : Heap) (a : Nat) (fields : List (String × Val)) (key : String),
        heapGet h a = some (.hobj fields) → List.lookup key fields = none →
        key ∉ objProtoKeys → existsWalk h (.ref a) [key] = false) := by
  constructor
  · intro h obj path hobj hpath
    simp [checkPathExists, hobj, hpath]
  · intro h a fields key hheap hlk hpk
    simp [existsWalk, looseNull, jsTypeof, jsHasIn, hheap, hlk, hpk]

/-- C7 witness. -/
theorem c7_exists_in_semantics_inst :
    checkPathExists [.hobj [("a", .vNum 1)]] (.ref 0) "a" =
      existsWalk [.hobj [("a", .vNum 1)]] (.ref 0) (compilePath "a") ∧
    existsWalk [.hobj [("a", .vNum 1)]] (.ref 0) ["b"] = false :=
  ⟨c7_exists_in_semantics.1 [.hobj [("a", .vNum 1)]] (.ref 0) "a" (by decide) (by decide),
   c7_exists_in_semantics.2 [.hobj [("a", .vNum 1)]] 0 [("a", .vNum 1)] "b" rfl (by decide)
     (by decide)⟩

/-!  ## C8 — per-mapping validation failures are isolated -/

/-- C8: `PropertySyncer` validates each mapping descriptor inside its own
try/catch, so registration is a `filterMap`: removing or inserting a
descriptor that fails validation leaves every other descriptor's
registration untouched, and every valid descriptor of a batch registers
regardless of invalid companions. -/
theorem c8_validation_isolation (h : Heap) (bad : Val) (xs ys : List Val)
    (hbad : validateMapping h bad = .error ()) :
    syncRegister h (xs ++ bad :: ys) = syncRegister h (xs ++ ys) ∧
    (∀ (item : Val) (m : VMeta), validateMapping h item = .ok m → item ∈ xs ++ bad :: ys →
        m ∈ syncRegister h (xs ++ bad :: ys)) := by
  constructor
  · unfold syncRegister
    rw [List.filterMap_append, List.filterMap_append]
    simp [List.filterMap_cons, hbad]
  · intro item m hok hmem
    unfold syncRegister
    exact List.mem_filterMap.mpr ⟨item, hmem, by simp [hok]⟩

/-- C8 witness. -/
theorem c8_validation_isolation_inst :
    syncRegister [.hobj [("value", .vNum 0)], .hobj [("path", .vStr "a"), ("target", .ref 0)]]
        ([.ref 1] ++ .vNull :: []) =
      syncRegister [.hobj [("value", .vNum 0)], .hobj [("path", .vStr "a"), ("target", .ref 0)]]
        ([.ref 1] ++ []) :=
  (c8_validation_isolation
    [.hobj [("value", .vNum 0)], .hobj [("path", .vStr "a"), ("target", .ref 0)]]
    .vNull [.ref 1] [] rfl).1

/-!  ## C1 — only a literal boolean `false` from the comparator suppresses -/

/-- C1: for a mapping with a user comparator, on a (new, old) pair that
passed change detection, the pipeline is suppressed at the comparator
gate iff the comparator returns the literal boolean `false`; any other
return value (booleans aside, ignored) lets the pipeline proceed to the
transform/write stages, and a throwing comparator is swallowed — with
`copyData` off (so the comparator stage leaves the heap untouched and
outcomes are comparable verbatim) the handler behaves exactly as if no
comparator were present. -/
theorem c1_comparator_gate (cfg : WCfg) (gd : Bool) (fuel : Nat) (h : Heap)
    (nv ov tvv : Val) (c : Val → Val → Except Unit Val) (h1 h2 : Heap) (cn co : Val)
    (hc : cfg.comparator = some c)
    (hch : changeDetect (useDeepOf cfg gd) fuel h nv ov = some true)
    (hp1 : prepArg cfg.copyData fuel h nv = some (h1, cn))
    (hp2 : prepArg cfg.copyData fuel h1 ov = some (h2, co)) :
    ((∃ h', createWatcherHandler cfg gd fuel h nv ov tvv = some (.suppressed h')) ↔
        c cn co = .ok (.vBool false)) ∧
    (c cn co ≠ .ok (.vBool false) →
        createWatcherHandler cfg gd fuel h nv ov tvv = afterComparator cfg gd fuel h2 nv tvv) ∧
    (cfg.copyData = false → (∃ e, c cn co = .error e) →
        createWatcherHandler cfg gd fuel h nv ov tvv =
          createWatcherHandler { cfg with comparator := none } gd fuel h nv ov tvv) := by
  have hcs : comparatorStage cfg fuel h nv ov =
      match c cn co with
      | .error _ => some (false, h2)
      | .ok r => some (r = .vBool false, h2) := by
    simp only [comparatorStage, hc, hp1, hp2]
  have hwh : createWatcherHandler cfg gd fuel h nv ov tvv =
      match comparatorStage cfg fuel h nv ov with
      | none => none
      | some (true, hh) => some (.suppressed hh)
      | some (false, hh) => afterComparator cfg gd fuel hh nv tvv := by
    unfold createWatcherHandler
    rw [hch]
  refine ⟨?_, ?_, ?_⟩
  · constructor
    · rintro ⟨h', hsup⟩
      rw [hwh, hcs] at hsup
      cases hr : c cn co with
      | error e =>
        rw [hr] at hsup
        exact absurd hsup (afterComparator_ne_suppressed cfg gd fuel h2 nv tvv h')
      | ok r =>
        rw [hr] at hsup
        by_cases hrf : r = .vBool false
        · rw [hrf]
        · simp [hrf] at hsup
          exact absurd hsup (afterComparator_ne_suppressed cfg gd fuel h2 nv tvv h')
    · intro hok
      refine ⟨h2, ?_⟩
      rw [hwh, hcs, hok]
      simp
  · intro hne
    rw [hwh, hcs]
    cases hr : c cn co with
    | error e => simp
    | ok r =>
      have hrf : ¬ (r = .vBool false) := fun heq => hne (by rw [hr, heq])
      simp [hrf]
  · intro hcd ⟨e, herr⟩
    rw [hwh, hcs, herr]
    have hp1' : h1 = h ∧ cn = nv := by
      rw [hcd] at hp1
      simp [prepArg] at hp1
      exact ⟨hp1.1.symm, hp1.2.symm⟩
    have hp2' : h2 = h1 := by
      rw [hcd] at hp2
      simp [prepArg] at hp2
      exact hp2.1.symm
    have hnone : createWatcherHandler { cfg with comparator := none } gd fuel h nv ov tvv =
        afterComparator { cfg with comparator := none } gd fuel h nv tvv := by
      unfold createWatcherHandler
      have hch' : changeDetect (useDeepOf { cfg with comparator := none } gd) fuel h nv ov =
          some true := hch
      rw [hch']
      unfold comparatorStage
      rfl
    have hsame : afterComparator { cfg with comparator := none } gd fuel h nv tvv =
        afterComparator cfg gd fuel h nv tvv := by
      cases cfg
      rfl
    rw [hnone, hsame, hp2', hp1'.1]

/-- C1 witness. -/
theorem c1_comparator_gate_inst :
    ∃ h', createWatcherHandler
        ⟨false, some false, some (fun _ _ => (Except.ok (Val.vBool false) : Except Unit Val)),
          fun v => Except.ok v⟩
        false 3 [] (.vNum 1) (.vNum 2) (.vNum 0) = some (.suppressed h') :=
  ((c1_comparator_gate
    ⟨false, some false, some (fun _ _ => (Except.ok (Val.vBool false) : Except Unit Val)),
      fun v => Except.ok v⟩
    false 3 [] (.vNum 1) (.vNum 2) (.vNum 0)
    (fun _ _ => (Except.ok (Val.vBool false) : Except Unit Val)) [] [] (.vNum 1) (.vNum 2)
    rfl (by decide) rfl rfl).1).mpr rfl

/-!  ## C9 — a throwing transform never aborts the pipeline -/

/-- C9: when the transform throws, the catch in step 3 falls back to the
*raw untransformed source value* as the final value and the handler
proceeds to the write stage; with shallow change detection the handler
always completes (no exception escapes the notification callback). -/
theorem c9_transform_throw (cfg : WCfg) (gd : Bool) (fuel : Nat) (h h2 h3 : Heap)
    (nv ov tvv tin : Val)
    (hch : changeDetect (useDeepOf cfg gd) fuel h nv ov = some true)
    (hcs : comparatorStage cfg fuel h nv ov = some (false, h2))
    (hp : prepArg cfg.copyData fuel h2 nv = some (h3, tin))
    (ht : cfg.transform tin = .error ()) :
    transformStage cfg fuel h2 nv = some (h3, nv) ∧
    createWatcherHandler cfg gd fuel h nv ov tvv =
      writeStage (useDeepOf cfg gd) fuel h3 tvv nv ∧
    (useDeepOf cfg gd = false →
        (createWatcherHandler cfg gd fuel h nv ov tvv).isSome = true) := by
  have hts : transformStage cfg fuel h2 nv = some (h3, nv) := by
    simp only [transformStage, hp, ht]
  refine ⟨hts, ?_, ?_⟩
  · simp only [createWatcherHandler, hch, afterComparator, hcs, hts]
  · intro hdeep
    simp only [createWatcherHandler, hch, afterComparator, hcs, hts]
    unfold writeStage changeDetect
    rw [hdeep]
    cases hq : jsStrictEq tvv nv <;>
      by_cases harr : isArrayV h3 nv ∧ isArrayV h3 tvv <;> simp [hq, harr]

/-- C9 witness. -/
theorem c9_transform_throw_inst :
    transformStage ⟨false, some false, none, fun _ => Except.error ()⟩ 3 [] (.vNum 1) =
      some ([], .vNum 1) ∧
    createWatcherHandler ⟨false, some false, none, fun _ => Except.error ()⟩
        false 3 [] (.vNum 1) (.vNum 2) (.vNum 0) =
      writeStage false 3 [] (.vNum 0) (.vNum 1) :=
  ⟨(c9_transform_throw ⟨false, some false, none, fun _ => Except.error ()⟩
      false 3 [] [] [] (.vNum 1) (.vNum 2) (.vNum 0) (.vNum 1)
      (by decide) rfl rfl rfl).1,
   (c9_transform_throw ⟨false, some false, none, fun _ => Except.error ()⟩
      false 3 [] [] [] (.vNum 1) (.vNum 2) (.vNum 0) (.vNum 1)
      (by decide) rfl rfl rfl).2.1⟩

/-!  ## Heap lemmas -/

/-- Reading a different address is unaffected by `heapSet`. -/
theorem heapGet_set_ne (h : Heap) (a b : Nat) (o : HObj) (hne : a ≠ b) :
    heapGet (heapSet h a o) b = heapGet h b :=
  List.get?_set_ne o h hne

/-- Reading the written address after `heapSet`. -/
theorem heapGet_set_self (h : Heap) (a : Nat) (o : HObj) (hlt : a < List.length h) :
    heapGet (heapSet h a o) a = some o :=
  List.get?_set_eq_of_lt o hlt

/-- An address that resolves to an object lies inside the heap. -/
theorem heapGet_lt_length {h : Heap} {a : Nat} {o : HObj} (hg : heapGet h a = some o) :
    a < List.length h := by
  by_contra hge
  rw [heapGet, List.get?_eq_none.mpr (Nat.le_of_not_lt hge)] at hg
  cases hg

/-- Reading an address below the old length is unaffected by `alloc`. -/
theorem heapGet_alloc_lt (h : Heap) (o : HObj) (a : Nat) (hlt : a < List.length h) :
    heapGet (alloc h o).1 a = heapGet h a := by
  simp only [heapGet, alloc, List.get?_eq_getElem?]
  exact List.getElem?_append_left hlt

/-!  ## C4 — reconciliation preserves plain-object slot identity -/

/-- C4 (counterexample): live sequence `[[1]]` (slot 0 holds the array at
address 1) reconciled against the structurally identical `[[1]]` (whose
element is the distinct array at address 3): `updateArray` treats an
array-valued new element like a primitive and assigns it wholesale, so
the live slot afterwards holds `ref 3` — the caller's array — and not its
original `ref 1`. -/
theorem c4_identity_cex :
    updateArray [.harr [.ref 1], .harr [.vNum 1], .harr [.ref 3], .harr [.vNum 1]]
        (.ref 0) (.ref 2) =
      [.harr [.ref 3], .harr [.vNum 1], .harr [.ref 3], .harr [.vNum 1]] ∧
    Val.ref 3 ≠ Val.ref 1 :=
  ⟨rfl, by decide⟩

/-- Every slot is a reference to a plain (keyed) object on the heap. -/
def AllPlainRefs (h : Heap) (l : List Val) : Prop :=
  ∀ v ∈ l, ∃ a f, v = Val.ref a ∧ heapGet h a = some (.hobj f)

/-- C4 (amended): for a live sequence whose slots are all plain-object
references and an equal-length new sequence of plain-object references,
`updateArray` merges field-by-field into the existing containers: after
the call the live array still holds exactly its original references
(`live[i] === originalRef[i]` for every `i`).  (The counterexample forces
the restriction to keyed-map containers: array-valued slots are replaced,
not merged.) -/
theorem c4_identity_preserved (h : Heap) (ta na : Nat) (tEs nEs : List Val)
    (hta : heapGet h ta = some (.harr tEs)) (hna : heapGet h na = some (.harr nEs))
    (hlen : List.length tEs = List.length nEs)
    (hT : AllPlainRefs h tEs) (hN : AllPlainRefs h nEs) :
    heapGet (updateArray h (.ref ta) (.ref na)) ta = some (.harr tEs) := by
  have hmain :
      ∀ (l : List Nat) (t : Heap),
        (heapGet t ta = some (.harr tEs) ∧ heapGet t na = some (.harr nEs) ∧
          AllPlainRefs t tEs ∧ AllPlainRefs t nEs) →
        (∀ i ∈ l, i < List.length tEs) →
        (heapGet (l.foldl (updStep ta na) t) ta = some (.harr tEs) ∧
          heapGet (l.foldl (updStep ta na) t) na = some (.harr nEs) ∧
          AllPlainRefs (l.foldl (updStep ta na) t) tEs ∧
          AllPlainRefs (l.foldl (updStep ta na) t) nEs) := by
    intro l t ht hbound
    refine foldl_preserve
      (fun t => heapGet t ta = some (.harr tEs) ∧ heapGet t na = some (.harr nEs) ∧
        AllPlainRefs t tEs ∧ AllPlainRefs t nEs)
      (updStep ta na) l t ht ?_
    intro u i hi hu
    obtain ⟨pta, pna, pT, pN⟩ := hu
    have hiT : i < List.length tEs := hbound i hi
    have hiN : i < List.length nEs := hlen ▸ hiT
    have haN : arrGet u na i = nEs.get ⟨i, hiN⟩ := by
      simp [arrGet, arrElems, pna, List.getD, List.getElem?_eq_getElem hiN,
            List.get_eq_getElem]
    have haT : arrGet u ta i = tEs.get ⟨i, hiT⟩ := by
      simp [arrGet, arrElems, pta, List.getD, List.getElem?_eq_getElem hiT,
            List.get_eq_getElem]
    obtain ⟨s, fs, hvs, hgs⟩ := pN (nEs.get ⟨i, hiN⟩) (List.get_mem nEs i hiN)
    obtain ⟨tt, ft, hvt, hgt⟩ := pT (tEs.get ⟨i, hiT⟩) (List.get_mem tEs i hiT)
    have htt_ne_ta : tt ≠ ta := by
      intro heq
      rw [heq, pta] at hgt
      cases hgt
    have htt_ne_na : tt ≠ na := by
      intro heq
      rw [heq, pna] at hgt
      cases hgt
    have htt_lt : tt < List.length u := heapGet_lt_length hgt
    have hkeep : ∀ X : List (String × Val),
        heapGet (heapSet u tt (.hobj X)) ta = some (.harr tEs) ∧
        heapGet (heapSet u tt (.hobj X)) na = some (.harr nEs) ∧
        AllPlainRefs (heapSet u tt (.hobj X)) tEs ∧
        AllPlainRefs (heapSet u tt (.hobj X)) nEs := by
      intro X
      refine ⟨?_, ?_, ?_, ?_⟩
      · rw [heapGet_set_ne u tt ta _ htt_ne_ta]; exact pta
      · rw [heapGet_set_ne u tt na _ htt_ne_na]; exact pna
      · intro v hv
        obtain ⟨x, fx, hvx, hgx⟩ := pT v hv
        by_cases hx : tt = x
        · exact ⟨x, X, hvx, by rw [← hx, heapGet_set_self u tt _ htt_lt]⟩
        · exact ⟨x, fx, hvx, by rw [heapGet_set_ne u tt x _ hx]; exact hgx⟩
      · intro v hv
        obtain ⟨x, fx, hvx, hgx⟩ := pN v hv
        by_cases hx : tt = x
        · exact ⟨x, X, hvx, by rw [← hx, heapGet_set_self u tt _ htt_lt]⟩
        · exact ⟨x, fx, hvx, by rw [heapGet_set_ne u tt x _ hx]; exact hgx⟩
    have hstep : updStep ta na u i = mergeInto u tt s := by
      simp only [updStep, haN, haT, hvs, hvt]
      simp [jsTypeof, isArrayV, isArrayA, hgs, hgt, truthy, looseNull, addrOf]
    rw [hstep]
    unfold mergeInto
    rw [hgt]
    exact hkeep _
  have hA1 : isArrayV h (.ref na) = true := by simp [isArrayV, isArrayA, hna]
  have hA2 : isArrayV h (.ref ta) = true := by simp [isArrayV, isArrayA, hta]
  have he1 : arrElems h ta = tEs := by simp [arrElems, hta]
  have he2 : arrElems h na = nEs := by simp [arrElems, hna]
  have hbody : updateArray h (.ref ta) (.ref na) =
      (List.range (List.length tEs)).foldl (updStep ta na) h := by
    simp only [updateArray, hA1, hA2, addrOf, he1, he2]
    rw [hlen, Nat.min_self]
    simp [Nat.lt_irrefl]
  rw [hbody]
  exact (hmain (List.range (List.length tEs)) h ⟨hta, hna, hT, hN⟩
    (fun i hi => List.mem_range.mp hi)).1

/-- C4 witness. -/
theorem c4_identity_preserved_inst :
    heapGet (updateArray
        [.harr [.ref 1], .hobj [("v", .vNum 1)], .harr [.ref 3], .hobj [("v", .vNum 2)]]
        (.ref 0) (.ref 2)) 0 = some (.harr [.ref 1]) :=
  c4_identity_preserved
    [.harr [.ref 1], .hobj [("v", .vNum 1)], .harr [.ref 3], .hobj [("v", .vNum 2)]]
    0 2 [.ref 1] [.ref 3] rfl rfl rfl
    (by intro v hv; simp at hv; exact ⟨1, [("v", .vNum 1)], hv, rfl⟩)
    (by intro v hv; simp at hv; exact ⟨3, [("v", .vNum 2)], hv, rfl⟩)

/-!  ## C5 — length reconciliation and the aliasing of appended elements -/

/-- C5 (counterexample): growing the empty live array against a new array
whose single element is the *array* at address 2: the push clones only
truthy non-array objects, so the appended slot holds `ref 2` — the very
element of the caller's new array, aliased, not a fresh clone. -/
theorem c5_append_alias_cex :
    updateArray [.harr [], .harr [.ref 2], .harr [.vNum 1]] (.ref 0) (.ref 1) =
      [.harr [.ref 2], .harr [.ref 2], .harr [.vNum 1]] ∧
    arrGet (updateArray [.harr [], .harr [.ref 2], .harr [.vNum 1]] (.ref 0) (.ref 1)) 0 0 =
      arrGet [.harr [], .harr [.ref 2], .harr [.vNum 1]] 1 0 :=
  ⟨rfl, rfl⟩

/-- `h2` still holds a plain object wherever `h1` does. -/
def HPres (h1 h2 : Heap) : Prop :=
  ∀ a f, heapGet h1 a = some (.hobj f) → ∃ f2, heapGet h2 a = some (.hobj f2)

theorem HPres_refl (h : Heap) : HPres h h := fun a f hg => ⟨f, hg⟩

theorem HPres_trans {h1 h2 h3 : Heap} (p : HPres h1 h2) (q : HPres h2 h3) : HPres h1 h3 :=
  fun a f hg => (p a f hg).elim (fun f2 hg2 => q a f2 hg2)

/-- Writing an array over an address that held an array keeps every plain
object in place. -/
theorem HPres_set_harr {u : Heap} {w : Nat} {L0 : List Val} (L : List Val)
    (hw : heapGet u w = some (.harr L0)) : HPres u (heapSet u w (.harr L)) := by
  intro a f hg
  have hne : w ≠ a := by intro he; rw [he, hg] at hw; cases hw
  exact ⟨f, by rw [heapGet_set_ne u w a _ hne]; exact hg⟩

/-- Writing a plain object anywhere keeps every plain object plain. -/
theorem HPres_set_hobj (u : Heap) (w : Nat) (X : List (String × Val)) :
    HPres u (heapSet u w (.hobj X)) := by
  intro a f hg
  by_cases he : w = a
  · exact ⟨X, by rw [← he, heapGet_set_self u w _ (he ▸ heapGet_lt_length hg)]⟩
  · exact ⟨f, by rw [heapGet_set_ne u w a _ he]; exact hg⟩

/-- Allocation keeps every plain object in place. -/
theorem HPres_alloc (u : Heap) (o : HObj) : HPres u (alloc u o).1 := by
  intro a f hg
  exact ⟨f, by rw [heapGet_alloc_lt u o a (heapGet_lt_length hg)]; exact hg⟩

/-- `arrSet` on the array at `a`. -/
theorem heapGet_arrSet_self (u : Heap) (a i : Nat) (v : Val) (es : List Val)
    (hu : heapGet u a = some (.harr es)) :
    heapGet (arrSet u a i v) a = some (.harr (es.set i v)) := by
  unfold arrSet
  rw [hu]
  exact heapGet_set_self u a _ (heapGet_lt_length hu)

/-- `arrPush` on the array at `a`. -/
theorem heapGet_arrPush_self (u : Heap) (a : Nat) (v : Val) (es : List Val)
    (hu : heapGet u a = some (.harr es)) :
    heapGet (arrPush u a v) a = some (.harr (List.append es [v])) := by
  unfold arrPush
  rw [hu]
  exact heapGet_set_self u a _ (heapGet_lt_length hu)

/-- `arrPush` leaves other addresses alone. -/
theorem heapGet_arrPush_other (u : Heap) (a x : Nat) (v : Val) (hne : a ≠ x) :
    heapGet (arrPush u a v) x = heapGet u x := by
  unfold arrPush
  cases hm : heapGet u a with
  | none => rfl
  | some o =>
    cases o with
    | hobj f => rfl
    | harr es => exact heapGet_set_ne u a x _ hne
    | hdate t => rfl

/-- `shallowClone` never disturbs existing heap entries. -/
theorem shallowClone_heap (u : Heap) (v : Val) (a : Nat) (o : HObj)
    (hu : heapGet u a = some o) : heapGet (shallowClone u v).1 a = some o := by
  have hlt := heapGet_lt_length hu
  unfold shallowClone
  cases v with
  | ref r =>
    cases hm : heapGet u r with
    | none => simp only [hm]; rw [heapGet_alloc_lt u _ a hlt]; exact hu
    | some o2 =>
      cases o2 with
      | hobj f => simp only [hm]; rw [heapGet_alloc_lt u _ a hlt]; exact hu
      | harr es => simp only [hm]; exact hu
      | hdate t => simp only [hm]; rw [heapGet_alloc_lt u _ a hlt]; exact hu
  | vUndefined => exact hu
  | vNull => exact hu
  | vBool b => exact hu
  | vNum n => exact hu
  | vNaN => exact hu
  | vStr s => exact hu
  | vFun i => exact hu

/-- `shallowClone` keeps plain objects plain. -/
theorem HPres_shallowClone (u : Heap) (v : Val) : HPres u (shallowClone u v).1 := by
  intro a f hg
  exact ⟨f, shallowClone_heap u v a _ hg⟩

/-- `shallowClone` never shrinks the heap. -/
theorem shallowClone_length (u : Heap) (v : Val) :
    List.length u ≤ List.length (shallowClone u v).1 := by
  unfold shallowClone
  cases v with
  | ref r =>
    cases hm : heapGet u r with
    | none => simp [hm, alloc]
    | some o2 => cases o2 <;> simp [hm, alloc]
  | vUndefined => exact Nat.le_refl _
  | vNull => exact Nat.le_refl _
  | vBool b => exact Nat.le_refl _
  | vNum n => exact Nat.le_refl _
  | vNaN => exact Nat.le_refl _
  | vStr s => exact Nat.le_refl _
  | vFun i => exact Nat.le_refl _

/-- On a clonable value (a reference to a plain object), `shallowClone`
is an allocation at the end of the heap. -/
theorem shallowClone_hobj (u : Heap) (s : Nat) (f : List (String × Val))
    (hs : heapGet u s = some (.hobj f)) :
    shallowClone u (.ref s) = ((alloc u (.hobj f)).1, .ref (List.length u)) := by
  simp only [shallowClone, hs]
  rfl

/-- An index that reads `some` is within bounds. -/
theorem get?_some_lt {α : Type} {l : List α} {i : Nat} {a : α} (h : l.get? i = some a) :
    i < List.length l := by
  by_contra hge
  rw [List.get?_eq_none.mpr (Nat.le_of_not_lt hge)] at h
  cases h

/-- A truthy value of object type is a reference. -/
theorem obj_truthy_ref {v : Val} (ht : truthy v = true) (hty : jsTypeof v = "object") :
    ∃ r, v = Val.ref r := by
  cases v with
  | ref r => exact ⟨r, rfl⟩
  | vUndefined => simp [jsTypeof] at hty
  | vNull => simp [truthy] at ht
  | vBool b => simp [jsTypeof] at hty
  | vNum n => simp [jsTypeof] at hty
  | vNaN => simp [jsTypeof] at hty
  | vStr s => simp [jsTypeof] at hty
  | vFun i => simp [jsTypeof] at hty

/-- `arrSet` written out as a `heapSet`. -/
theorem arrSet_eq (u : Heap) (a i : Nat) (v : Val) (es : List Val)
    (hu : heapGet u a = some (.harr es)) :
    arrSet u a i v = heapSet u a (.harr (es.set i v)) := by
  unfold arrSet
  rw [hu]

/-- `arrPush` written out as a `heapSet`. -/
theorem arrPush_eq (u : Heap) (a : Nat) (v : Val) (es : List Val)
    (hu : heapGet u a = some (.harr es)) :
    arrPush u a v = heapSet u a (.harr (List.append es [v])) := by
  unfold arrPush
  rw [hu]

/-- `arrTrunc` on the array at `a`. -/
theorem heapGet_arrTrunc_self (u : Heap) (a n : Nat) (es : List Val)
    (hu : heapGet u a = some (.harr es)) :
    heapGet (arrTrunc u a n) a = some (.harr (es.take n)) := by
  unfold arrTrunc
  rw [hu]
  exact heapGet_set_self u a _ (heapGet_lt_length hu)

/-- One overlap step of `updateArray` keeps the live array in place with
its length, keeps every *other* array in place verbatim, keeps plain
objects plain, and never shrinks the heap. -/
theorem updStep_master (ta na : Nat) (u : Heap) (i : Nat) (es : List Val)
    (hu : heapGet u ta = some (.harr es)) :
    (∃ es2, heapGet (updStep ta na u i) ta = some (.harr es2) ∧
      List.length es2 = List.length es) ∧
    (∀ x L, x ≠ ta → heapGet u x = some (.harr L) →
      heapGet (updStep ta na u i) x = some (.harr L)) ∧
    HPres u (updStep ta na u i) ∧
    List.length u ≤ List.length (updStep ta na u i) := by
  have hset : ∀ (w : Heap) (v : Val) (esw : List Val), heapGet w ta = some (.harr esw) →
      (∃ es2, heapGet (arrSet w ta i v) ta = some (.harr es2) ∧
        List.length es2 = List.length esw) ∧
      (∀ x L, x ≠ ta → heapGet w x = some (.harr L) →
        heapGet (arrSet w ta i v) x = some (.harr L)) ∧
      HPres w (arrSet w ta i v) ∧ List.length w ≤ List.length (arrSet w ta i v) := by
    intro w v esw hw
    rw [arrSet_eq w ta i v esw hw]
    refine ⟨⟨esw.set i v, heapGet_set_self w ta _ (heapGet_lt_length hw), List.length_set ..⟩,
      ?_, HPres_set_harr _ hw, ?_⟩
    · intro x L hne hx
      rw [heapGet_set_ne w ta x _ (fun he => hne he.symm)]
      exact hx
    · simp [heapSet]
  unfold updStep
  by_cases h1 : arrGet u na i = Val.vNull ∨ jsTypeof (arrGet u na i) ≠ "object" ∨
      isArrayV u (arrGet u na i) = true
  · rw [if_pos h1]
    by_cases h2 : ¬ jsStrictEq (arrGet u ta i) (arrGet u na i) = true
    · rw [if_pos h2]
      exact hset u _ es hu
    · rw [if_neg h2]
      exact ⟨⟨es, hu, rfl⟩, fun x L _ hx => hx, HPres_refl u, Nat.le_refl _⟩
  · rw [if_neg h1]
    by_cases h2 : truthy (arrGet u ta i) = true ∧ jsTypeof (arrGet u ta i) = "object" ∧
        ¬ isArrayV u (arrGet u ta i) = true
    · rw [if_pos h2]
      unfold mergeInto
      cases hm : heapGet u (addrOf (arrGet u ta i)) with
      | none => exact ⟨⟨es, hu, rfl⟩, fun x L _ hx => hx, HPres_refl u, Nat.le_refl _⟩
      | some o =>
        cases o with
        | hobj ft =>
          have hneta : addrOf (arrGet u ta i) ≠ ta := by
            intro he; rw [he, hu] at hm; cases hm
          refine ⟨⟨es, ?_, rfl⟩, ?_, HPres_set_hobj u _ _, ?_⟩
          · rw [heapGet_set_ne u _ ta _ hneta]; exact hu
          · intro x L hne hx
            have hnex : addrOf (arrGet u ta i) ≠ x := by
              intro he; rw [he, hx] at hm; cases hm
            rw [heapGet_set_ne u _ x _ hnex]
            exact hx
          · simp [heapSet]
        | harr es3 => exact ⟨⟨es, hu, rfl⟩, fun x L _ hx => hx, HPres_refl u, Nat.le_refl _⟩
        | hdate t => exact ⟨⟨es, hu, rfl⟩, fun x L _ hx => hx, HPres_refl u, Nat.le_refl _⟩
    · rw [if_neg h2]
      have hta2 : heapGet (shallowClone u (arrGet u na i)).1 ta = some (.harr es) :=
        shallowClone_heap u _ ta _ hu
      obtain ⟨ha, hb, hc, hd⟩ := hset (shallowClone u (arrGet u na i)).1
        (shallowClone u (arrGet u na i)).2 es hta2
      refine ⟨ha, ?_, HPres_trans (HPres_shallowClone u _) hc,
        (shallowClone_length u _).trans hd⟩
      intro x L hne hx
      exact hb x L hne (shallowClone_heap u _ x _ hx)

/-- The overlap phase of `updateArray`: the live array keeps its length,
the new array is untouched (when distinct from the live one), plain
objects stay plain, and the heap only grows. -/
theorem phase1_inv (ta na : Nat) (h : Heap) (tEs nEs : List Val)
    (hta : heapGet h ta = some (.harr tEs)) (hna : heapGet h na = some (.harr nEs))
    (l : List Nat) :
    (∃ es1, heapGet (l.foldl (updStep ta na) h) ta = some (.harr es1) ∧
      List.length es1 = List.length tEs) ∧
    (ta ≠ na → heapGet (l.foldl (updStep ta na) h) na = some (.harr nEs)) ∧
    HPres h (l.foldl (updStep ta na) h) ∧
    List.length h ≤ List.length (l.foldl (updStep ta na) h) := by
  refine foldl_preserve
    (fun t => (∃ es1, heapGet t ta = some (.harr es1) ∧
        List.length es1 = List.length tEs) ∧
      (ta ≠ na → heapGet t na = some (.harr nEs)) ∧ HPres h t ∧
      List.length h ≤ List.length t)
    (updStep ta na) l h
    ⟨⟨tEs, hta, rfl⟩, fun _ => hna, HPres_refl h, Nat.le_refl _⟩ ?_
  intro u i _ hu
  obtain ⟨⟨es1, hes1, hlen1⟩, hnau, hpres, hle⟩ := hu
  obtain ⟨⟨es2, hes2, hlen2⟩, hoth, hpres2, hle2⟩ := updStep_master ta na u i es1 hes1
  exact ⟨⟨es2, hes2, hlen2.trans hlen1⟩,
    fun hne => hoth na nEs (fun he => hne he.symm) (hnau hne),
    HPres_trans hpres hpres2, hle.trans hle2⟩

/-- The grow phase of `updateArray`: each appended slot gets the new
element pushed — shallow-cloned to a fresh address when the (heap-)object
it references is a plain object, aliased otherwise — while the new array
and the heap prefix stay intact. -/
theorem grow_inv (ta na : Nat) (h h1 : Heap) (nEs es1 : List Val) (oldL : Nat)
    (hne : ta ≠ na)
    (h1ta : heapGet h1 ta = some (.harr es1)) (hlen1 : List.length es1 = oldL)
    (h1na : heapGet h1 na = some (.harr nEs))
    (hpres : HPres h h1) (hlh : List.length h ≤ List.length h1) :
    ∀ k, oldL + k ≤ List.length nEs →
      ∃ es, heapGet ((List.range' oldL k).foldl (appendStep ta na) h1) ta =
          some (.harr es) ∧
        List.length es = oldL + k ∧
        heapGet ((List.range' oldL k).foldl (appendStep ta na) h1) na = some (.harr nEs) ∧
        HPres h ((List.range' oldL k).foldl (appendStep ta na) h1) ∧
        List.length h ≤ List.length ((List.range' oldL k).foldl (appendStep ta na) h1) ∧
        (∀ i, oldL ≤ i → i < oldL + k → ∀ s f, nEs.get? i = some (.ref s) →
          heapGet h s = some (.hobj f) →
          ∃ c, es.get? i = some (.ref c) ∧ List.length h ≤ c ∧ c ≠ s) := by
  intro k
  induction k with
  | zero =>
    intro _
    exact ⟨es1, h1ta, by omega, h1na, hpres, hlh, fun i hi1 hi2 _ _ _ _ => by omega⟩
  | succ k ih =>
    intro hk
    obtain ⟨es, hta2, hlen2, hna2, hpres2, hle2, hfresh⟩ := ih (by omega)
    set t := (List.range' oldL k).foldl (appendStep ta na) h1 with hT
    rw [List.range'_1_concat, List.foldl_append]
    simp only [List.foldl_cons, List.foldl_nil]
    have hidx : oldL + k < List.length nEs := by omega
    have hitem : arrGet t na (oldL + k) = nEs.get ⟨oldL + k, hidx⟩ := by
      simp [arrGet, arrElems, hna2, List.getD, List.getElem?_eq_getElem hidx,
        List.get_eq_getElem]
    -- the per-branch summary of `appendStep`
    have hout : ∃ (t2 : Heap) (w : Val),
        appendStep ta na t (oldL + k) = arrPush t2 ta w ∧
        heapGet t2 ta = some (.harr es) ∧ heapGet t2 na = some (.harr nEs) ∧
        HPres t t2 ∧ List.length t ≤ List.length t2 ∧
        (∀ s f, nEs.get ⟨oldL + k, hidx⟩ = .ref s → heapGet h s = some (.hobj f) →
          w = .ref (List.length t) ∧ List.length t < List.length t2) := by
      unfold appendStep
      rw [hitem]
      by_cases hcl : truthy (nEs.get ⟨oldL + k, hidx⟩) = true ∧
          jsTypeof (nEs.get ⟨oldL + k, hidx⟩) = "object" ∧
          ¬ isArrayV t (nEs.get ⟨oldL + k, hidx⟩) = true
      · rw [if_pos hcl]
        obtain ⟨r, hr⟩ := obj_truthy_ref hcl.1 hcl.2.1
        rw [hr]
        cases hm : heapGet t r with
        | none =>
          refine ⟨(alloc t (.hobj [])).1, .ref (List.length t), ?_, ?_, ?_, HPres_alloc t _,
            by simp [alloc], ?_⟩
          · simp only [shallowClone, hm]; rfl
          · rw [heapGet_alloc_lt t _ ta (heapGet_lt_length hta2)]; exact hta2
          · rw [heapGet_alloc_lt t _ na (heapGet_lt_length hna2)]; exact hna2
          · intro s f hs hf
            obtain ⟨f2, hf2⟩ := hpres2 s f hf
            cases hs
            rw [hf2] at hm
            cases hm
        | some o2 =>
          cases o2 with
          | hobj f2 =>
            refine ⟨(alloc t (.hobj f2)).1, .ref (List.length t), ?_, ?_, ?_, HPres_alloc t _,
              by simp [alloc], ?_⟩
            · simp only [shallowClone, hm]; rfl
            · rw [heapGet_alloc_lt t _ ta (heapGet_lt_length hta2)]; exact hta2
            · rw [heapGet_alloc_lt t _ na (heapGet_lt_length hna2)]; exact hna2
            · intro s f hs hf
              exact ⟨rfl, by simp [alloc]⟩
          | harr es3 =>
            exfalso
            apply hcl.2.2
            rw [hr]
            simp [isArrayV, isArrayA, hm]
          | hdate tt =>
            refine ⟨(alloc t (.hobj [])).1, .ref (List.length t), ?_, ?_, ?_, HPres_alloc t _,
              by simp [alloc], ?_⟩
            · simp only [shallowClone, hm]; rfl
            · rw [heapGet_alloc_lt t _ ta (heapGet_lt_length hta2)]; exact hta2
            · rw [heapGet_alloc_lt t _ na (heapGet_lt_length hna2)]; exact hna2
            · intro s f hs hf
              obtain ⟨f3, hf3⟩ := hpres2 s f hf
              cases hs
              rw [hf3] at hm
              cases hm
      · rw [if_neg hcl]
        refine ⟨t, nEs.get ⟨oldL + k, hidx⟩, rfl, hta2, hna2, HPres_refl t, Nat.le_refl _, ?_⟩
        intro s f hs hf
        exfalso
        apply hcl
        obtain ⟨f2, hf2⟩ := hpres2 s f hf
        rw [hs]
        refine ⟨rfl, rfl, ?_⟩
        simp [isArrayV, isArrayA, hf2]
    obtain ⟨t2, w, hstep, h2ta, h2na, hp2, hl2, hfr⟩ := hout
    rw [hstep, arrPush_eq t2 ta w es h2ta]
    have hlt2 : ta < List.length t2 := heapGet_lt_length h2ta
    refine ⟨List.append es [w], heapGet_set_self t2 ta _ hlt2, ?_, ?_, ?_, ?_, ?_⟩
    · simp [hlen2]; omega
    · rw [heapGet_set_ne t2 ta na _ hne]; exact h2na
    · exact HPres_trans hpres2 (HPres_trans hp2 (HPres_set_harr _ h2ta))
    · have : List.length (heapSet t2 ta (.harr (List.append es [w]))) = List.length t2 := by
        simp [heapSet]
      omega
    · intro i hi1 hi2 s f hgs hhs
      by_cases hik : i < oldL + k
      · obtain ⟨c, hc1, hc2, hc3⟩ := hfresh i hi1 hik s f hgs hhs
        refine ⟨c, ?_, hc2, hc3⟩
        rw [show (List.append es [w] : List Val) = es ++ [w] from rfl]
        rw [List.get?_append (by omega)]
        exact hc1
      · have hieq : i = oldL + k := by omega
        subst hieq
        have hw : w = .ref (List.length t) ∧ List.length t < List.length t2 := by
          apply hfr s f _ hhs
          have : nEs.get? (oldL + k) = some (nEs.get ⟨oldL + k, hidx⟩) := by
            simp [List.get?_eq_getElem?, List.getElem?_eq_getElem hidx, List.get_eq_getElem]
          rw [this] at hgs
          exact Option.some.inj hgs
        refine ⟨List.length t, ?_, by omega, ?_⟩
        · rw [show (List.append es [w] : List Val) = es ++ [w] from rfl]
          rw [hw.1] at *
          have : List.length es = oldL + k := hlen2
          rw [← this, List.get?_concat_length]
        · have hslt : s < List.length h := heapGet_lt_length hhs
          omega

/-- C5 (amended): after `reconcile(live, new)` the live array has exactly
new's length (append when longer, `splice` truncation when shorter); and
every appended element whose new-array entry references a *plain object*
is pushed as a fresh shallow clone — a reference allocated beyond the old
heap, distinct from the corresponding element of new.  (The
counterexample forces the restriction: appended *array* elements are
pushed as-is, aliasing the caller's element, and primitives are copied by
value.) -/
theorem c5_reconcile_length_clones (h : Heap) (ta na : Nat) (tEs nEs : List Val)
    (hta : heapGet h ta = some (.harr tEs)) (hna : heapGet h na = some (.harr nEs)) :
    (∃ es, heapGet (updateArray h (.ref ta) (.ref na)) ta = some (.harr es) ∧
        List.length es = List.length nEs) ∧
    (∀ i s f, List.length tEs ≤ i → nEs.get? i = some (.ref s) →
        heapGet h s = some (.hobj f) →
        ∃ c, (arrElems (updateArray h (.ref ta) (.ref na)) ta).get? i = some (.ref c) ∧
          List.length h ≤ c ∧ c ≠ s) := by
  have hA1 : isArrayV h (.ref na) = true := by simp [isArrayV, isArrayA, hna]
  have hA2 : isArrayV h (.ref ta) = true := by simp [isArrayV, isArrayA, hta]
  have he1 : arrElems h ta = tEs := by simp [arrElems, hta]
  have he2 : arrElems h na = nEs := by simp [arrElems, hna]
  have hbody : updateArray h (.ref ta) (.ref na) =
      (if List.length tEs < List.length nEs then
        (List.range' (List.length tEs) (List.length nEs - List.length tEs)).foldl
          (appendStep ta na)
          ((List.range (min (List.length tEs) (List.length nEs))).foldl (updStep ta na) h)
      else if List.length nEs < List.length tEs then
        arrTrunc ((List.range (min (List.length tEs) (List.length nEs))).foldl
          (updStep ta na) h) ta (List.length nEs)
      else (List.range (min (List.length tEs) (List.length nEs))).foldl (updStep ta na) h) := by
    simp only [updateArray, hA1, hA2, addrOf, he1, he2]
    simp
  obtain ⟨⟨es1, hes1, hlen1⟩, hnaP, hpres1, hle1⟩ :=
    phase1_inv ta na h tEs nEs hta hna
      (List.range (min (List.length tEs) (List.length nEs)))
  rcases Nat.lt_trichotomy (List.length tEs) (List.length nEs) with hlt | heq | hgt
  · -- grow
    have hne : ta ≠ na := by
      intro he
      rw [he, hna] at hta
      have heS : tEs = nEs := by cases hta; rfl
      rw [heS] at hlt
      exact Nat.lt_irrefl _ hlt
    obtain ⟨es, hta2, hlen2, _, _, _, hfresh⟩ :=
      grow_inv ta na h
        ((List.range (min (List.length tEs) (List.length nEs))).foldl (updStep ta na) h)
        nEs es1 (List.length tEs) hne hes1 hlen1 (hnaP hne) hpres1 hle1
        (List.length nEs - List.length tEs) (by omega)
    rw [hbody, if_pos hlt]
    constructor
    · exact ⟨es, hta2, by omega⟩
    · intro i s f hge hget hhs
      have hilt : i < List.length nEs := get?_some_lt hget
      obtain ⟨c, hc1, hc2, hc3⟩ := hfresh i hge (by omega) s f hget hhs
      refine ⟨c, ?_, hc2, hc3⟩
      simp only [arrElems, hta2]
      exact hc1
  · -- equal lengths: neither grow nor shrink
    rw [hbody, if_neg (by omega), if_neg (by omega)]
    refine ⟨⟨es1, hes1, by omega⟩, ?_⟩
    intro i s f hge hget _
    have hilt : i < List.length nEs := get?_some_lt hget
    omega
  · -- shrink
    rw [hbody, if_neg (by omega), if_pos hgt]
    refine ⟨⟨es1.take (List.length nEs),
      heapGet_arrTrunc_self _ ta _ es1 hes1, by simp [List.length_take]; omega⟩, ?_⟩
    intro i s f hge hget _
    have hilt : i < List.length nEs := get?_some_lt hget
    omega

/-- C5 witness: growing `[]` against `[{v: 1}]` appends a clone at the
fresh address 3 (the old heap has length 3), distinct from address 2. -/
theorem c5_reconcile_length_clones_inst :
    ∃ c, (arrElems (updateArray [.harr [], .harr [.ref 2], .hobj [("v", .vNum 1)]]
        (.ref 0) (.ref 1)) 0).get? 0 = some (.ref c) ∧
      3 ≤ c ∧ c ≠ 2 :=
  (c5_reconcile_length_clones [.harr [], .harr [.ref 2], .hobj [("v", .vNum 1)]]
    0 1 [] [.ref 2] rfl rfl).2 0 2 [("v", .vNum 1)] (Nat.le_refl 0) rfl rfl

/-!  ## C10 — copyData isolation of the user callbacks -/

/-- The values stored in a heap object. -/
def hvals : HObj → List Val
  | .hobj fields => fields.map (fun p => p.2)
  | .harr elems => elems
  | .hdate _ => []

/-- All references inside a value lie at or above `b`. -/
def valAbove (b : Nat) (v : Val) : Prop := ∀ a, v = Val.ref a → b ≤ a

/-- All references inside an object lie at or above `b`. -/
def objAbove (b : Nat) (o : HObj) : Prop := ∀ v ∈ hvals o, valAbove b v

/-- Heap reachability: `ReachA h a c` holds when address `c` can be
reached from address `a` by following references stored in heap objects. -/
inductive ReachA (h : Heap) : Nat → Nat → Prop where
  | refl (a : Nat) : ReachA h a a
  | step {a m c : Nat} (o : HObj) : ReachA h a m → heapGet h m = some o →
      Val.ref c ∈ hvals o → ReachA h a c

/-- A successful lookup is a member. -/
theorem lookup_mem {β : Type} : ∀ (l : List (Nat × β)) (a : Nat) (b : β),
    List.lookup a l = some b → (a, b) ∈ l := by
  intro l
  induction l with
  | nil => intro a b hl; cases hl
  | cons p ps ih =>
    intro a b hl
    cases p with
    | mk k v =>
      rw [List.lookup] at hl
      cases hake : (a == k) with
      | true =>
        rw [hake] at hl
        cases hl
        have hak : a = k := eq_of_beq hake
        subst hak
        exact List.mem_cons_self _ _
      | false =>
        rw [hake] at hl
        exact List.mem_cons_of_mem _ (ih a b hl)

/-- Reading the address just allocated. -/
theorem heapGet_alloc_self (h : Heap) (o : HObj) :
    heapGet (alloc h o).1 (List.length h) = some o := by
  simp only [heapGet, alloc]
  exact List.get?_concat_length h o

/-- Invariant of a `deepCopy` run with fresh-region bound `b` (the length
of the original heap): the heap keeps everything below `b` verbatim, the
`seen` map sends originals into the fresh region, and objects in the
fresh region only reference the fresh region. -/
structure CopyInv (b : Nat) (h0 h : Heap) (seen : List (Nat × Nat)) : Prop where
  hb : b ≤ List.length h
  pre : ∀ i, i < b → heapGet h i = heapGet h0 i
  seenAbove : ∀ p ∈ seen, b ≤ p.2 ∧ p.2 < List.length h
  freshClosed : ∀ i, b ≤ i → ∀ o, heapGet h i = some o → objAbove b o

/-- Allocating a fresh object whose references stay above `b` preserves
the copy invariant (and records the new `seen` pair). -/
theorem CopyInv_alloc {b : Nat} {h0 h : Heap} {seen : List (Nat × Nat)} (a : Nat) (o : HObj)
    (inv : CopyInv b h0 h seen) (ho : objAbove b o) :
    CopyInv b h0 (alloc h o).1 ((a, List.length h) :: seen) := by
  obtain ⟨hb0, pre0, seen0, fresh0⟩ := inv
  have hlen : List.length (alloc h o).1 = List.length h + 1 := by simp [alloc]
  refine ⟨by omega, ?_, ?_, ?_⟩
  · intro i hi
    rw [heapGet_alloc_lt h o i (by omega)]
    exact pre0 i hi
  · intro p hp
    cases hp with
    | head => exact ⟨hb0, by omega⟩
    | tail _ hmem =>
      obtain ⟨h1, h2⟩ := seen0 p hmem
      exact ⟨h1, by omega⟩
  · intro i hbi o2 hgo2
    rcases Nat.lt_trichotomy i (List.length h) with hlt | heq | hgt
    · rw [heapGet_alloc_lt h o i hlt] at hgo2
      exact fresh0 i hbi o2 hgo2
    · subst heq
      rw [heapGet_alloc_self h o] at hgo2
      cases hgo2
      exact ho
    · have := heapGet_lt_length hgo2
      omega

/-- Overwriting a fresh address with an object whose references stay
above `b` preserves the copy invariant. -/
theorem CopyInv_heapSet {b : Nat} {h0 h : Heap} {seen : List (Nat × Nat)} (w : Nat) (o : HObj)
    (inv : CopyInv b h0 h seen) (hwb : b ≤ w) (hwlen : w < List.length h)
    (ho : objAbove b o) : CopyInv b h0 (heapSet h w o) seen := by
  obtain ⟨hb0, pre0, seen0, fresh0⟩ := inv
  have hlen : List.length (heapSet h w o) = List.length h := by simp [heapSet]
  refine ⟨by omega, ?_, ?_, ?_⟩
  · intro i hi
    rw [heapGet_set_ne h w i o (by omega)]
    exact pre0 i hi
  · intro p hp
    obtain ⟨h1, h2⟩ := seen0 p hp
    exact ⟨h1, by omega⟩
  · intro i hbi o2 hgo2
    by_cases he : w = i
    · subst he
      rw [heapGet_set_self h w o hwlen] at hgo2
      cases hgo2
      exact ho
    · rw [heapGet_set_ne h w i o he] at hgo2
      exact fresh0 i hbi o2 hgo2

/-- The copy invariant as a property of one copy function. -/
def CpGood (b : Nat) (h0 : Heap)
    (cp : Heap → Val → List (Nat × Nat) → Option (Heap × Val × List (Nat × Nat))) : Prop :=
  ∀ h v seen h2 v2 seen2, CopyInv b h0 h seen → cp h v seen = some (h2, v2, seen2) →
    CopyInv b h0 h2 seen2 ∧ valAbove b v2 ∧ List.length h ≤ List.length h2

/-- `copyListF` preserves the copy invariant and yields fresh values. -/
theorem copyListF_inv {b : Nat} {h0 : Heap}
    {cp : Heap → Val → List (Nat × Nat) → Option (Heap × Val × List (Nat × Nat))}
    (hcp : CpGood b h0 cp) :
    ∀ (l : List Val) (h : Heap) (seen : List (Nat × Nat)) (h2 : Heap) (l2 : List Val)
      (seen2 : List (Nat × Nat)),
      CopyInv b h0 h seen → copyListF cp h l seen = some (h2, l2, seen2) →
      CopyInv b h0 h2 seen2 ∧ (∀ v ∈ l2, valAbove b v) ∧
        List.length h ≤ List.length h2 := by
  intro l
  induction l with
  | nil =>
    intro h seen h2 l2 seen2 hinv hcl
    cases hcl
    exact ⟨hinv, fun v hv => absurd hv (List.not_mem_nil v), Nat.le_refl _⟩
  | cons v vs ih =>
    intro h seen h2 l2 seen2 hinv hcl
    simp only [copyListF] at hcl
    cases hc1 : cp h v seen with
    | none => simp only [hc1] at hcl; cases hcl
    | some t1 =>
      obtain ⟨hm, vm, seenm⟩ := t1
      simp only [hc1] at hcl
      cases hc2 : copyListF cp hm vs seenm with
      | none => simp only [hc2] at hcl; cases hcl
      | some t2 =>
        obtain ⟨hf, vsf, seenf⟩ := t2
        simp only [hc2] at hcl
        obtain ⟨inv1, va1, len1⟩ := hcp h v seen hm vm seenm hinv hc1
        obtain ⟨inv2, va2, len2⟩ := ih hm seenm hf vsf seenf inv1 hc2
        cases hcl
        refine ⟨inv2, ?_, len1.trans len2⟩
        intro w hw
        rcases List.mem_cons.mp hw with hw1 | hw2
        · rw [hw1]; exact va1
        · exact va2 w hw2

/-- `copyFieldsF` preserves the copy invariant and yields fresh values. -/
theorem copyFieldsF_inv {b : Nat} {h0 : Heap}
    {cp : Heap → Val → List (Nat × Nat) → Option (Heap × Val × List (Nat × Nat))}
    (hcp : CpGood b h0 cp) :
    ∀ (l : List (String × Val)) (h : Heap) (seen : List (Nat × Nat)) (h2 : Heap)
      (l2 : List (String × Val)) (seen2 : List (Nat × Nat)),
      CopyInv b h0 h seen → copyFieldsF cp h l seen = some (h2, l2, seen2) →
      CopyInv b h0 h2 seen2 ∧ (∀ kv ∈ l2, valAbove b kv.2) ∧
        List.length h ≤ List.length h2 := by
  intro l
  induction l with
  | nil =>
    intro h seen h2 l2 seen2 hinv hcl
    cases hcl
    exact ⟨hinv, fun kv hkv => absurd hkv (List.not_mem_nil kv), Nat.le_refl _⟩
  | cons kv kvs ih =>
    intro h seen h2 l2 seen2 hinv hcl
    obtain ⟨k, v⟩ := kv
    simp only [copyFieldsF] at hcl
    cases hc1 : cp h v seen with
    | none => simp only [hc1] at hcl; cases hcl
    | some t1 =>
      obtain ⟨hm, vm, seenm⟩ := t1
      simp only [hc1] at hcl
      cases hc2 : copyFieldsF cp hm kvs seenm with
      | none => simp only [hc2] at hcl; cases hcl
      | some t2 =>
        obtain ⟨hf, kvsf, seenf⟩ := t2
        simp only [hc2] at hcl
        obtain ⟨inv1, va1, len1⟩ := hcp h v seen hm vm seenm hinv hc1
        obtain ⟨inv2, va2, len2⟩ := ih hm seenm hf kvsf seenf inv1 hc2
        cases hcl
        refine ⟨inv2, ?_, len1.trans len2⟩
        intro w hw
        rcases List.mem_cons.mp hw with hw1 | hw2
        · rw [hw1]; exact va1
        · exact va2 w hw2

/-- A non-reference value trivially stays above any bound. -/
theorem valAbove_nonref (b : Nat) (v : Val) (hnr : isObjVal v = false) : valAbove b v := by
  intro x hx
  rw [hx] at hnr
  simp [isObjVal] at hnr

/-- A reference above the bound. -/
theorem valAbove_ref {b a : Nat} (hb : b ≤ a) : valAbove b (Val.ref a) := by
  intro x hx
  cases hx
  exact hb

/-- The central freshness lemma: a `deepCopy` run preserves the copy
invariant, and its result value only references the fresh region. -/
theorem deepCopyF_inv (b : Nat) (h0 : Heap) :
    ∀ fuel : Nat, CpGood b h0 (deepCopyF fuel) := by
  intro fuel
  induction fuel with
  | zero => intro h v seen h2 v2 seen2 _ hcp; cases hcp
  | succ fuel ih =>
    intro h v seen h2 v2 seen2 hinv hcp
    cases v with
    | vUndefined =>
      simp only [deepCopyF] at hcp
      cases hcp; exact ⟨hinv, valAbove_nonref b _ rfl, Nat.le_refl _⟩
    | vNull =>
      simp only [deepCopyF] at hcp
      cases hcp; exact ⟨hinv, valAbove_nonref b _ rfl, Nat.le_refl _⟩
    | vBool bb =>
      simp only [deepCopyF] at hcp
      cases hcp; exact ⟨hinv, valAbove_nonref b _ rfl, Nat.le_refl _⟩
    | vNum nn =>
      simp only [deepCopyF] at hcp
      cases hcp; exact ⟨hinv, valAbove_nonref b _ rfl, Nat.le_refl _⟩
    | vNaN =>
      simp only [deepCopyF] at hcp
      cases hcp; exact ⟨hinv, valAbove_nonref b _ rfl, Nat.le_refl _⟩
    | vStr ss =>
      simp only [deepCopyF] at hcp
      cases hcp; exact ⟨hinv, valAbove_nonref b _ rfl, Nat.le_refl _⟩
    | vFun ff =>
      simp only [deepCopyF] at hcp
      cases hcp; exact ⟨hinv, valAbove_nonref b _ rfl, Nat.le_refl _⟩
    | ref a =>
      simp only [deepCopyF] at hcp
      cases hl : List.lookup a seen with
      | some n =>
        simp only [hl] at hcp
        have hmem := hinv.seenAbove (a, n) (lookup_mem seen a n hl)
        cases hcp
        exact ⟨hinv, valAbove_ref hmem.1, Nat.le_refl _⟩
      | none =>
        simp only [hl] at hcp
        cases hg : heapGet h a with
        | none =>
          simp only [hg, alloc] at hcp
          have hinv1 := CopyInv_alloc a (HObj.hobj [])
            hinv (fun w hw => absurd hw (List.not_mem_nil w))
          have hhb := hinv.hb
          cases hcp
          exact ⟨hinv1, valAbove_ref hhb, by simp⟩
        | some o =>
          cases o with
          | hdate t =>
            simp only [hg, alloc] at hcp
            have hinv1 := CopyInv_alloc a (HObj.hdate t)
              hinv (fun w hw => absurd hw (List.not_mem_nil w))
            have hhb := hinv.hb
            cases hcp
            exact ⟨hinv1, valAbove_ref hhb, by simp⟩
          | harr elems =>
            simp only [hg, alloc] at hcp
            cases hc : copyListF (fun h' v' s' => deepCopyF fuel h' v' s')
                (List.append h [HObj.harr []]) elems ((a, List.length h) :: seen) with
            | none => simp only [hc] at hcp; cases hcp
            | some t2 =>
              obtain ⟨hm, elems2, seenm⟩ := t2
              simp only [hc] at hcp
              have hinv1 : CopyInv b h0 (alloc h (.harr [])).1 ((a, List.length h) :: seen) :=
                CopyInv_alloc a _ hinv (fun w hw => absurd hw (List.not_mem_nil w))
              obtain ⟨inv2, va2, len2⟩ :=
                copyListF_inv ih elems (List.append h [HObj.harr []])
                  ((a, List.length h) :: seen) hm elems2 seenm hinv1 hc
              have hlen1 : List.length (List.append h [HObj.harr []]) =
                  List.length h + 1 := by simp
              have hwlen : List.length h < List.length hm := by omega
              have hfin : CopyInv b h0 (heapSet hm (List.length h) (HObj.harr elems2)) seenm :=
                CopyInv_heapSet (List.length h) (.harr elems2) inv2 hinv.hb hwlen
                  (fun w hw => va2 w hw)
              have hlenf : List.length (heapSet hm (List.length h) (HObj.harr elems2)) =
                  List.length hm := by simp [heapSet]
              have hhb := hinv.hb
              cases hcp
              exact ⟨hfin, valAbove_ref hhb, by omega⟩
          | hobj fields =>
            simp only [hg, alloc] at hcp
            cases hc : copyFieldsF (fun h' v' s' => deepCopyF fuel h' v' s')
                (List.append h [HObj.hobj []]) fields ((a, List.length h) :: seen) with
            | none => simp only [hc] at hcp; cases hcp
            | some t2 =>
              obtain ⟨hm, fields2, seenm⟩ := t2
              simp only [hc] at hcp
              have hinv1 : CopyInv b h0 (alloc h (.hobj [])).1 ((a, List.length h) :: seen) :=
                CopyInv_alloc a _ hinv (fun w hw => absurd hw (List.not_mem_nil w))
              obtain ⟨inv2, va2, len2⟩ :=
                copyFieldsF_inv ih fields (List.append h [HObj.hobj []])
                  ((a, List.length h) :: seen) hm fields2 seenm hinv1 hc
              have hlen1 : List.length (List.append h [HObj.hobj []]) =
                  List.length h + 1 := by simp
              have hwlen : List.length h < List.length hm := by omega
              have hfin : CopyInv b h0 (heapSet hm (List.length h) (HObj.hobj fields2)) seenm := by
                refine CopyInv_heapSet (List.length h) (.hobj fields2) inv2 hinv.hb hwlen ?_
                intro w hw
                simp only [hvals, List.mem_map] at hw
                obtain ⟨kv, hkv, hkv2⟩ := hw
                rw [← hkv2]
                exact va2 kv hkv
              have hlenf : List.length (heapSet hm (List.length h) (HObj.hobj fields2)) =
                  List.length hm := by simp [heapSet]
              have hhb := hinv.hb
              cases hcp
              exact ⟨hfin, valAbove_ref hhb, by omega⟩

/-- Reachability from the fresh region stays in the fresh region. -/
theorem reach_above {b : Nat} {h0 h2 : Heap} {seen2 : List (Nat × Nat)}
    (inv : CopyInv b h0 h2 seen2) :
    ∀ a c, b ≤ a → ReachA h2 a c → b ≤ c := by
  intro a c hba hr
  induction hr with
  | refl => exact hba
  | step o _ hg hmem ihr => exact inv.freshClosed _ ihr o hg _ hmem _ rfl

/-- A `deepCopy` run leaves the original heap verbatim and produces a
value none of whose reachable addresses lies inside the original heap:
the copy shares no references with the copied value. -/
theorem deepCopy_no_sharing (fuel : Nat) (h : Heap) (v : Val) (h2 : Heap) (v2 : Val)
    (seen2 : List (Nat × Nat)) (hcp : deepCopyF fuel h v [] = some (h2, v2, seen2)) :
    (∀ i, i < List.length h → heapGet h2 i = heapGet h i) ∧
    (∀ a c, v2 = .ref a → ReachA h2 a c → List.length h ≤ c) := by
  have hinv0 : CopyInv (List.length h) h h [] :=
    ⟨Nat.le_refl _, fun i _ => rfl, fun p hp => absurd hp (List.not_mem_nil p),
     fun i hbi o hgo => absurd (heapGet_lt_length hgo) (by omega)⟩
  obtain ⟨inv, va, _⟩ :=
    deepCopyF_inv (List.length h) h fuel h v [] h2 v2 seen2 hinv0 hcp
  exact ⟨inv.pre, fun a c hv2 hr => reach_above inv a c (va a hv2) hr⟩

/-- C10: `validateMapping` defaults `copyData` to `true` when the field is
absent from the descriptor; under `copyData`, the argument handed to the
comparator/transform for an object-valued source is a `deepCopy` run,
which leaves every original heap entry verbatim and yields a value none
of whose reachable addresses lies in the original heap — the callbacks
share no references with the watched value, so mutating their arguments
cannot alter it; a transform returning `undefined` makes the (copied)
input the final value; and an object returned by the transform is itself
deep-copied before the write. -/
theorem c10_copy_data_isolation :
    (∀ (h : Heap) (item : Val) (m : VMeta),
        validateMapping h item = .ok m → jsGetProp h item "copyData" = .vUndefined →
        m.copyData = true) ∧
    (∀ (fuel : Nat) (h : Heap) (v : Val) (h2 : Heap) (v2 : Val) (seen2 : List (Nat × Nat)),
        deepCopyF fuel h v [] = some (h2, v2, seen2) →
        (∀ i, i < List.length h → heapGet h2 i = heapGet h i) ∧
        (∀ a c, v2 = .ref a → ReachA h2 a c → List.length h ≤ c)) ∧
    (∀ (fuel : Nat) (h : Heap) (v : Val) (h2 : Heap) (v2 : Val),
        isObjVal v = true → prepArg true fuel h v = some (h2, v2) →
        ∃ seen2, deepCopyF fuel h v [] = some (h2, v2, seen2)) ∧
    (∀ (cfg : WCfg) (fuel : Nat) (h h1 : Heap) (sv tin : Val),
        prepArg cfg.copyData fuel h sv = some (h1, tin) →
        cfg.transform tin = .ok .vUndefined →
        transformStage cfg fuel h sv = some (h1, tin)) ∧
    (∀ (cfg : WCfg) (fuel : Nat) (h h1 : Heap) (sv tin tv : Val),
        cfg.copyData = true → prepArg cfg.copyData fuel h sv = some (h1, tin) →
        cfg.transform tin = .ok tv → isObjVal tv = true →
        transformStage cfg fuel h sv =
          (match deepCopyF fuel h1 tv [] with
           | none => none
           | some (hf, fv, _) => some (hf, fv))) := by
  refine ⟨?_, ?_, ?_, ?_, ?_⟩
  · intro h item m hok hcd
    simp only [validateMapping, hcd] at hok
    split_ifs at hok <;> try cases hok
    all_goals simp_all [truthy]
  · intro fuel h v h2 v2 seen2 hcp
    exact deepCopy_no_sharing fuel h v h2 v2 seen2 hcp
  · intro fuel h v h2 v2 hv hp
    simp only [prepArg, hv] at hp
    cases hd : deepCopyF fuel h v [] with
    | none => simp [hd] at hp
    | some t =>
      obtain ⟨hh, vv, ss⟩ := t
      simp [hd] at hp
      obtain ⟨rfl, rfl⟩ := hp
      exact ⟨ss, rfl⟩
  · intro cfg fuel h h1 sv tin hp ht
    simp [transformStage, hp, ht]
  · intro cfg fuel h h1 sv tin tv hcd hp ht htv
    have hne : tv ≠ .vUndefined := by
      intro he
      rw [he] at htv
      simp [isObjVal] at htv
    simp only [transformStage, hp, ht]
    rw [if_neg hne, if_pos (And.intro hcd htv)]

/-- C10 witness. -/
theorem c10_copy_data_isolation_inst :
    VMeta.copyData
      { path := "a", target := .ref 0, hasTransform := false,
        hasComparator := false, deepOpt := none, copyData := true } = true ∧
    transformStage ⟨false, none, none, fun _ => Except.ok .vUndefined⟩ 3 [] (.vNum 1) =
      some ([], .vNum 1) :=
  ⟨c10_copy_data_isolation.1
      [.hobj [("value", .vNum 0)], .hobj [("path", .vStr "a"), ("target", .ref 0)]]
      (.ref 1)
      { path := "a", target := .ref 0, hasTransform := false,
        hasComparator := false, deepOpt := none, copyData := true } rfl rfl,
   c10_copy_data_isolation.2.2.2.1 ⟨false, none, none, fun _ => Except.ok .vUndefined⟩
      3 [] [] (.vNum 1) (.vNum 1) rfl rfl⟩
